import Mathlib

/-!
# Verification of the chat-manager core (branch resolver, forest builder, tree ops, cache manager)

Shallow embedding of the TypeScript sources of the 聊天管理器 (chat manager) module:
`data/types.ts`, `data/chat-parser.ts`, the forest-building variant of `chat-tree.ts`
(the file exporting `buildChatForest`), and `store.ts`.

Modelling conventions:
* JavaScript `Date` values are modelled by their millisecond value (`Int`,
  as returned by `Date.getTime()`).
* JavaScript `Map` objects keyed by strings are modelled either as association
  lists with insert-or-overwrite semantics (`assocSet`/`assocGet`) or, for the
  node arena of the forest builder, as functions `String → Option _` updated
  pointwise (`mapInsert`), which mirrors the mutable object graph.
* `Array.prototype.sort` with a numeric comparator is, per the ECMAScript
  specification, a stable sort ordered by the comparator.  `sortJS` below is a
  stable insertion sort with the same observable behaviour (the stable sort of
  a list under a consistent comparator is unique).
* JavaScript string truthiness (`if (s)`) is modelled by `isTruthy`:
  `undefined`/absent and the empty string are falsy.
* Strings are compared with decidable equality; `localeCompare` (used only for
  the `name` sort key) is modelled as the canonical order on strings, which
  preserves everything the theorems below rely on (the comparator is total).
-/

/-! ## Data model (`data/types.ts`) -/

/-- `ChatInfo` from `data/types.ts`.  `created_at`/`updated_at` are `Date`
values modelled as milliseconds.  `parent_chat` and `branch_point` are
optional fields. -/
structure ChatInfo where
  file_id : String
  file_name : String
  display_name : String
  created_at : Int
  updated_at : Int
  message_count : Int
  first_message_preview : String
  last_message_preview : String
  parent_chat : Option String
  branch_point : Option Int
  is_checkpoint : Bool
  is_current : Bool
deriving DecidableEq, Repr

/-- Sort key (`SortBy` in `data/types.ts`). -/
inductive SortBy where
  | updated_at | created_at | name | message_count
deriving DecidableEq, Repr

/-- Sort direction (`SortOrder` in `data/types.ts`). -/
inductive SortOrder where
  | asc | desc
deriving DecidableEq, Repr

/-- `SortConfig` from `data/types.ts`. -/
structure SortConfig where
  by_ : SortBy
  order : SortOrder
deriving DecidableEq, Repr

/-- JavaScript string truthiness for an optional string field:
`undefined` and `""` are falsy. -/
def isTruthy : Option String → Bool
  | none => false
  | some s => s ≠ ""

/-! ## A stable comparator sort (JavaScript `Array.prototype.sort`)

`sortJS cmp` is the stable sort by the integer comparator `cmp`: the unique
permutation that is sorted w.r.t. `cmp` and keeps equal-comparing elements in
their original relative order, exactly what the ECMAScript specification
guarantees for `Array.prototype.sort` with a consistent comparator. -/

/-- Insert `a` in front of the first element `b` with `cmp a b ≤ 0`
(stable insertion). -/
def insertCmp (cmp : α → α → Int) (a : α) : List α → List α
  | [] => [a]
  | b :: bs => if cmp a b ≤ 0 then a :: b :: bs else b :: insertCmp cmp a bs

/-- Stable sort by an integer comparator. -/
def sortJS (cmp : α → α → Int) : List α → List α
  | [] => []
  | a :: as => insertCmp cmp a (sortJS cmp as)

/-! ## Association-list maps (JavaScript `Map` with string keys) -/

/-- `Map.get`: the value stored at `k`, if any. -/
def assocGet (m : List (String × α)) (k : String) : Option α :=
  (m.find? (fun e => e.1 = k)).map (·.2)

/-- `Map.set`: overwrite the entry at `k` if present, else append it. -/
def assocSet (m : List (String × α)) (k : String) (v : α) : List (String × α) :=
  if m.any (fun e => e.1 = k) then
    m.map (fun e => if e.1 = k then (k, v) else e)
  else m ++ [(k, v)]

/-! ## `data/chat-parser.ts` -/

/-- The characters of the session-file suffix `".jsonl"`. -/
def suffixJsonl : List Char := ['.', 'j', 's', 'o', 'n', 'l']

/-- The `while (base.endsWith('.jsonl')) base = base.slice(0, -6)` loop of
`cleanFileName` (and of `deleteChatDirect` in `store.ts`): remove every
trailing `.jsonl` suffix. -/
def stripJsonlAll (s : List Char) : List Char :=
  if h : suffixJsonl.isSuffixOf s then
    stripJsonlAll (s.take (s.length - 6))
  else s
termination_by s.length
decreasing_by
  have hsuf : suffixJsonl <:+ s := by
    rwa [List.isSuffixOf_iff_suffix] at h
  have h6 : 6 ≤ s.length := by
    have := hsuf.length_le
    simpa [suffixJsonl] using this
  simp only [List.length_take]
  omega

/-- `cleanFileName` from `data/chat-parser.ts`: strip every trailing `.jsonl`
suffix, then return the base name and the full name with exactly one suffix. -/
def cleanFileName (name : String) : String × String :=
  let base := stripJsonlAll name.data
  (⟨base⟩, ⟨base ++ suffixJsonl⟩)

/-- The regex replacement `file_name.replace(/\.jsonl?$/, '')`: drop one
trailing `.jsonl` (preferred, the regex is greedy) or `.json` suffix. -/
def stripExtOnce (s : String) : String :=
  if suffixJsonl.isSuffixOf s.data then ⟨s.data.take (s.data.length - 6)⟩
  else if ['.', 'j', 's', 'o', 'n'].isSuffixOf s.data then ⟨s.data.take (s.data.length - 5)⟩
  else s

/-- The alias table of `detectBranchRelations`: for every record, map its
`file_id`, its `file_name`, and its `file_name` with the session-file
extension stripped, to its canonical `file_id` (later records overwrite
earlier entries, as `Map.set` does). -/
def nameToId (chats : List ChatInfo) : List (String × String) :=
  chats.foldl
    (fun t c =>
      assocSet
        (assocSet
          (assocSet t c.file_id c.file_id)
          c.file_name c.file_id)
        (stripExtOnce c.file_name) c.file_id)
    []

/-- `detectBranchRelations` from `data/chat-parser.ts`: resolve every record's
`parent_chat` hint through the alias table; hints resolving to the record
itself or to no known record are discarded.  Returns the child→parent map. -/
def detectBranchRelations (chats : List ChatInfo) : List (String × String) :=
  let name_to_id := nameToId chats
  chats.foldl
    (fun rels c =>
      match c.parent_chat with
      | some h =>
          if h ≠ "" then
            match assocGet name_to_id h with
            | some parent_id =>
                if parent_id ≠ c.file_id then assocSet rels c.file_id parent_id
                else rels
            | none => rels
          else rels
      | none => rels)
    []

/-! ## `chat-tree.ts` (the forest-building variant): sorting and filtering -/

/-- `localeCompare`, modelled as the canonical decidable order on strings. -/
def strCmp (a b : String) : Int :=
  if a < b then -1 else if b < a then 1 else 0

/-- The comparator of `sortChats`: `multiplier * (key a - key b)`. -/
def chatCmp (config : SortConfig) (a b : ChatInfo) : Int :=
  let multiplier : Int := match config.order with
    | .asc => 1
    | .desc => -1
  match config.by_ with
  | .updated_at => multiplier * (a.updated_at - b.updated_at)
  | .created_at => multiplier * (a.created_at - b.created_at)
  | .name => multiplier * strCmp a.display_name b.display_name
  | .message_count => multiplier * (a.message_count - b.message_count)

/-- `sortChats` from `chat-tree.ts`: stable sort of a copy of the list by the
configured comparator. -/
def sortChats (chats : List ChatInfo) (config : SortConfig) : List ChatInfo :=
  sortJS (chatCmp config) chats

/-- `s.toLowerCase()`. -/
def lowerStr (s : String) : String := ⟨s.data.map Char.toLower⟩

/-- `s.trim()`: drop ASCII whitespace from both ends. -/
def trimStr (s : String) : String :=
  ⟨(s.data.dropWhile Char.isWhitespace).reverse.dropWhile Char.isWhitespace |>.reverse⟩

/-- `a.includes(b)`. -/
def strIncludes (a b : String) : Bool := decide (b.data <:+: a.data)

/-- `filterChats` from `chat-tree.ts`.  The store always passes both options:
`show_checkpoints` from the settings and the search keyword. -/
def filterChats (chats : List ChatInfo) (search : String) (show_checkpoints : Bool) :
    List ChatInfo :=
  let result := if show_checkpoints = false then chats.filter (fun c => ¬ c.is_checkpoint) else chats
  if trimStr search ≠ "" then
    let keyword := trimStr (lowerStr search)
    result.filter (fun c =>
      strIncludes (lowerStr c.display_name) keyword ||
      strIncludes (lowerStr c.first_message_preview) keyword ||
      strIncludes (lowerStr c.last_message_preview) keyword)
  else result

/-! ## The forest builder (`buildChatForest` and helpers)

The mutable object graph of `ChatTreeNode`s (`node_map` in the source) is
modelled as an arena: a map from `file_id` to node data, where a node's
`children` are stored as the list of their `file_id`s, in push order. -/

/-- The data of one `ChatTreeNode` in the arena: the wrapped record, the
ordered children (by id), the transient view state. -/
structure ArenaNode where
  chat : ChatInfo
  children : List String
  depth : Nat
  is_expanded : Bool
  is_selected : Bool
deriving DecidableEq, Repr

/-- The node arena (`node_map`). -/
abbrev NodeMap := String → Option ArenaNode

/-- Pointwise update of the arena (mutating one node object). -/
def mapInsert (m : NodeMap) (k : String) (v : ArenaNode) : NodeMap :=
  fun k' => if k' = k then some v else m k'

/-- `node_map.set(chat.file_id, { chat, children: [], depth: 0,
is_expanded: true, is_selected: false })` over all records (forest mode:
default expanded). -/
def initMap (chats : List ChatInfo) : NodeMap :=
  chats.foldl
    (fun m c => mapInsert m c.file_id
      { chat := c, children := [], depth := 0, is_expanded := true, is_selected := false })
    (fun _ => none)

/-- Intermediate state of the attachment loop: the arena plus the root list. -/
structure BuildSt where
  map : NodeMap
  roots : List String

/-- One iteration of the attachment loop of `buildChatForest`: if the record
has a truthy `parent_chat` naming a node in the map, set the node's depth to
the parent's current depth plus one and push it onto the parent's children;
otherwise push it onto the roots. -/
def attachStep (st : BuildSt) (c : ChatInfo) : BuildSt :=
  match st.map c.file_id with
  | none => st
  | some node =>
    match c.parent_chat with
    | some p =>
        if p ≠ "" then
          match st.map p with
          | some parent_node =>
              let m1 := mapInsert st.map c.file_id { node with depth := parent_node.depth + 1 }
              let m2 := match m1 p with
                | some pn => mapInsert m1 p { pn with children := pn.children ++ [c.file_id] }
                | none => m1
              ⟨m2, st.roots⟩
          | none => ⟨st.map, st.roots ++ [c.file_id]⟩
        else ⟨st.map, st.roots ++ [c.file_id]⟩
    | none => ⟨st.map, st.roots ++ [c.file_id]⟩

/-- The attachment loop over the (sorted, parent-filled) record list. -/
def buildArena (chats : List ChatInfo) : BuildSt :=
  chats.foldl attachStep ⟨initMap chats, []⟩

/-- The children ids stored for `x` (empty for an id outside the map). -/
def childrenOf (m : NodeMap) (x : String) : List String :=
  match m x with
  | some nd => nd.children
  | none => []

/-- `updated_at` of the node at `x` (`0` outside the map; the builder only
looks up ids that are in the map). -/
def updOf (m : NodeMap) (x : String) : Int :=
  match m x with
  | some nd => nd.chat.updated_at
  | none => 0

/-- `is_current` of the node at `x`. -/
def curOf (m : NodeMap) (x : String) : Bool :=
  match m x with
  | some nd => nd.chat.is_current
  | none => false

/-- `display_name` of the node at `x`. -/
def nameOf (m : NodeMap) (x : String) : String :=
  match m x with
  | some nd => nd.chat.display_name
  | none => ""

/-- `sortChildrenDesc` from `buildChatForest`: sort each visited node's
children by `updated_at` descending (`(a, b) => b.chat.updated_at -
a.chat.updated_at`, a stable sort), then recurse into the children.
The recursion is fuelled; the builder passes fuel exceeding every chain
length, so the fuel is never exhausted on the structures the builder
produces. -/
def sortChildrenDesc (fuel : Nat) (m : NodeMap) (x : String) : NodeMap :=
  match fuel with
  | 0 => m
  | fuel + 1 =>
    match m x with
    | none => m
    | some nd =>
        if nd.children.length > 0 then
          let sorted := sortJS (fun a b => updOf m b - updOf m a) nd.children
          let m1 := mapInsert m x { nd with children := sorted }
          sorted.foldl (fun acc y => sortChildrenDesc fuel acc y) m1
        else m

/-- `roots.forEach(sortChildrenDesc)`. -/
def sortPass (fuel : Nat) (m : NodeMap) (roots : List String) : NodeMap :=
  roots.foldl (fun acc r => sortChildrenDesc fuel acc r) m

/-- `flattenTreeAll` from the forest-building `chat-tree.ts`: the node (id)
followed by the flattening of all its children, expansion state ignored.
Fuelled recursion; within the builder the fuel always exceeds every chain
length. -/
def flattenF : Nat → NodeMap → String → List String
  | 0, _, _ => []
  | fuel + 1, m, x => x :: ((childrenOf m x).map (flattenF fuel m)).flatten

/-- `ChatTree` from `data/types.ts`.  `root` is the id of the root node
(the node object itself lives in the forest's arena); `nodeIds` is the
flattened subtree (`tree_nodes` in the source), so `node_count =
nodeIds.length`. -/
structure ChatTree where
  id : String
  root : String
  display_name : String
  node_count : Nat
  latest_update : Int
  has_current : Bool
  is_expanded : Bool
  nodeIds : List String
deriving DecidableEq, Repr

/-- `ChatForest` from `data/types.ts`, together with the arena holding the
node objects that the trees' `root` fields reference. -/
structure ChatForest where
  trees : List ChatTree
  total_count : Nat
  nodes : NodeMap

/-- The tree comparator of `buildChatForest`: trees containing the current
chat first, then by latest update descending. -/
def treeCmp (a b : ChatTree) : Int :=
  if a.has_current ∧ ¬ b.has_current then -1
  else if ¬ a.has_current ∧ b.has_current then 1
  else b.latest_update - a.latest_update

/-- The parent-filling step of `buildChatForest`: records without a truthy
`parent_chat` take the detected relation for their `file_id`, if any. -/
def fillParents (chats : List ChatInfo) : List ChatInfo :=
  let relations := detectBranchRelations chats
  chats.map (fun c =>
    if isTruthy c.parent_chat then c
    else match assocGet relations c.file_id with
      | some p => { c with parent_chat := some p }
      | none => c)

/-- The record list the attachment loop of `buildChatForest` actually
processes: sorted by the effective sort configuration, then parent-filled
when branch detection is on. -/
def processedList (chats : List ChatInfo) (sort_config : Option SortConfig)
    (detect_branches : Bool) : List ChatInfo :=
  let effective_sort := sort_config.getD ⟨.updated_at, .desc⟩
  let sorted := sortChats chats effective_sort
  if detect_branches then fillParents sorted else sorted

/-- `buildChatForest` from the forest-building `chat-tree.ts`: sort, detect
branch relations, build the node arena by attachment, sort children by
update time descending, convert each root into a `ChatTree` with aggregates,
and order the trees (current-chat trees first, then latest update
descending). -/
def buildChatForest (chats : List ChatInfo) (sort_config : Option SortConfig)
    (detect_branches : Bool) : ChatForest :=
  let sorted_chats := processedList chats sort_config detect_branches
  let st := buildArena sorted_chats
  let fuel := chats.length + 1
  let m := sortPass fuel st.map st.roots
  let trees := st.roots.map (fun r =>
    let tree_nodes := flattenF fuel m r
    let latest := tree_nodes.foldl
      (fun mx i => if updOf m i > mx then updOf m i else mx) (updOf m r)
    let has_current := tree_nodes.any (fun i => curOf m i)
    { id := r
      root := r
      display_name := nameOf m r
      node_count := tree_nodes.length
      latest_update := latest
      has_current := has_current
      is_expanded := has_current || tree_nodes.length ≤ 5
      nodeIds := tree_nodes })
  { trees := sortJS treeCmp trees
    total_count := chats.length
    nodes := m }

/-- `countNodesInForest` from the forest-building `chat-tree.ts`. -/
def countNodesInForest (forest : ChatForest) : Nat :=
  forest.total_count

/-- The resolved parent of a record, as the attachment loop sees it: the
truthy `parent_chat` value when it names a node of the arena (whose keys are
exactly `ids`). -/
def effParent (ids : List String) (c : ChatInfo) : Option String :=
  match c.parent_chat with
  | some p => if p ≠ "" ∧ p ∈ ids then some p else none
  | none => none

/-! ## Tree traversal utilities (`getSelectedNodes`, `flattenTree`, `flattenTreeAll`)

For the pure traversal functions the built tree structure is modelled as an
inductive tree (acyclic object graphs are exactly inductive trees). -/

/-- `ChatTreeNode` from `data/types.ts`, as an inductive tree. -/
inductive ChatTreeNode where
  | mk (chat : ChatInfo) (children : List ChatTreeNode) (depth : Nat)
      (expandedFlag selectedFlag : Bool)

/-- The wrapped record. -/
def ChatTreeNode.chat : ChatTreeNode → ChatInfo
  | .mk c _ _ _ _ => c

/-- The ordered children. -/
def ChatTreeNode.children : ChatTreeNode → List ChatTreeNode
  | .mk _ ch _ _ _ => ch

/-- The node's depth field. -/
def ChatTreeNode.depth : ChatTreeNode → Nat
  | .mk _ _ d _ _ => d

/-- The expansion flag. -/
def ChatTreeNode.is_expanded : ChatTreeNode → Bool
  | .mk _ _ _ e _ => e

/-- The selection flag. -/
def ChatTreeNode.is_selected : ChatTreeNode → Bool
  | .mk _ _ _ _ s => s

/-- `getSelectedNodes` from `chat-tree.ts`: depth-first pre-order traversal of
every node regardless of expansion, collecting the selected ones. -/
def getSelectedNodes : List ChatTreeNode → List ChatTreeNode
  | [] => []
  | .mk c ch d e s :: rest =>
      (if s then [ChatTreeNode.mk c ch d e s] else []) ++
      getSelectedNodes ch ++ getSelectedNodes rest

/-- `flattenTree` from `chat-tree.ts`: depth-first pre-order flattening that
recurses into a node's children only when the node is expanded. -/
def flattenTree : List ChatTreeNode → List ChatTreeNode
  | [] => []
  | .mk c ch d e s :: rest =>
      ChatTreeNode.mk c ch d e s ::
      ((if e then flattenTree ch else []) ++ flattenTree rest)

/-- `flattenTreeAll` from the forest-building `chat-tree.ts`, extended
pointwise to a list of roots: every node of every subtree, expansion
ignored. -/
def flattenTreeAll : List ChatTreeNode → List ChatTreeNode
  | [] => []
  | .mk c ch d e s :: rest =>
      ChatTreeNode.mk c ch d e s :: (flattenTreeAll ch ++ flattenTreeAll rest)

/-- A node is visible (listed by `flattenTree`) precisely when it sits at the
end of a chain of expanded ancestors.  `here`: a root is always visible;
`deeper`: a child of a visible expanded node is visible. -/
inductive VisibleIn : ChatTreeNode → List ChatTreeNode → Prop where
  | here {t : ChatTreeNode} {nodes : List ChatTreeNode} :
      t ∈ nodes → VisibleIn t nodes
  | deeper {t x : ChatTreeNode} {nodes : List ChatTreeNode} :
      t ∈ nodes → t.is_expanded = true → VisibleIn x t.children →
      VisibleIn x nodes

/-- Reassign every node's expansion flag (by its record id), leaving
everything else unchanged: the general form of "flip any set of
expand/collapse toggles". -/
def reExpand (g : String → Bool) : List ChatTreeNode → List ChatTreeNode
  | [] => []
  | .mk c ch d _ s :: rest =>
      ChatTreeNode.mk c (reExpand g ch) d (g c.file_id) s :: reExpand g rest

/-! ## The cache manager (`store.ts`) -/

/-- `ChatCache` from `data/types.ts`. -/
structure ChatCache where
  chats : List ChatInfo
  timestamp : Int
  character : String
deriving DecidableEq, Repr

/-- The reactive state of the store (`useChatManagerStore`), restricted to the
fields the cache manager reads and writes.  `cache` is the module-level
`global_cache`. -/
structure StoreState where
  is_loading : Bool
  is_background_loading : Bool
  error_message : Option String
  chats : List ChatInfo
  forest : ChatForest
  search_keyword : String
  sort_config : SortConfig
  show_checkpoints : Bool
  cache : Option ChatCache
  cache_time : Option Int

/-- The environment of one store action: the current wall clock
(`Date.now()`), the active character (`getCharData('current')?.name`), and
the outcome `fetchChatList` would produce (`.error` models a rejected
fetch carrying its message). -/
structure Ambient where
  now : Int
  char : Option String
  fetch : Except String (List ChatInfo)

/-- `isCacheValid` from `store.ts`: a cache entry exists, a character is
selected, the entry belongs to that character, and it is younger than the
5-minute TTL. -/
def isCacheValid (amb : Ambient) (st : StoreState) : Bool :=
  match st.cache, amb.char with
  | some c, some n => c.character = n && amb.now - c.timestamp < 5 * 60 * 1000
  | _, _ => false

/-- `updateCache` from `store.ts`: replace the global cache with the new
records, stamped now, for the current character; a no-op without a selected
character. -/
def updateCache (amb : Ambient) (st : StoreState) (new_chats : List ChatInfo) : StoreState :=
  match amb.char with
  | none => st
  | some n =>
      { st with
        cache := some { chats := new_chats, timestamp := amb.now, character := n }
        cache_time := some amb.now }

/-- `rebuildForest` from `store.ts`: rebuild the displayed forest from the
filtered records with branch detection on. -/
def rebuildForest (st : StoreState) : StoreState :=
  { st with
    forest := buildChatForest
      (filterChats st.chats st.search_keyword st.show_checkpoints)
      (some st.sort_config) true }

/-- `refreshInBackground` from `store.ts`: single-flight guarded background
fetch; on success, if the fetched id sequence differs from the displayed one,
swap in the records, update the cache and rebuild the forest, otherwise only
update the cache; failures are swallowed. -/
def refreshInBackground (amb : Ambient) (st : StoreState) : StoreState :=
  if st.is_background_loading then st
  else
    let st1 := { st with is_background_loading := true }
    let st2 := match amb.fetch with
      | .ok new_chats =>
          if (new_chats.map (fun c => ChatInfo.file_id c)) ≠ (st1.chats.map (fun c => ChatInfo.file_id c)) then
            rebuildForest (updateCache amb { st1 with chats := new_chats } new_chats)
          else
            updateCache amb st1 new_chats
      | .error _ => st1
    { st2 with is_background_loading := false }

/-- `loadChats` from `store.ts`.  In the cooperative single-threaded model
the background refresh scheduled on the cached path is executed to
completion as part of the action (it runs on the same scheduler with no
interleaving mutation, and the claims concern the settled state). -/
def loadChats (force_refresh : Bool) (amb : Ambient) (st : StoreState) : StoreState :=
  let st0 := { st with error_message := none }
  if force_refresh = false ∧ isCacheValid amb st0 = true then
    match st0.cache with
    | some c =>
        let st1 := { st0 with chats := c.chats, cache_time := some c.timestamp }
        refreshInBackground amb (rebuildForest st1)
    | none => st0
  else
    let st1 := { st0 with is_loading := true }
    match amb.fetch with
    | .ok new_chats =>
        { rebuildForest (updateCache amb { st1 with chats := new_chats } new_chats) with
          is_loading := false }
    | .error e =>
        { st1 with error_message := some e, is_loading := false }

/-- The file-name normalization of `deleteChatDirect` in `store.ts`: the same
`while (endsWith('.jsonl')) slice(0, -6)` loop as `cleanFileName`, then a
single `.jsonl` suffix appended — this is the `chatfile` value sent to the
delete endpoint. -/
def deleteChatFileName (chat_file : String) : String :=
  ⟨stripJsonlAll chat_file.data ++ suffixJsonl⟩

/-! ## Concrete fixtures for witnesses and counterexamples -/

/-- A record with the given id, update time, parent hint and message count;
remaining fields set to innocuous defaults. -/
def sampleChat (fid : String) (upd : Int) (parent : Option String) (mc : Int) : ChatInfo :=
  { file_id := fid, file_name := fid ++ ".jsonl", display_name := fid,
    created_at := upd, updated_at := upd, message_count := mc,
    first_message_preview := "", last_message_preview := "",
    parent_chat := parent, branch_point := none,
    is_checkpoint := false, is_current := false }

/-- Record `A` of the mutual-parent pair. -/
def cycleRecA : ChatInfo := sampleChat "a" 2 (some "b") 3

/-- Record `B` of the mutual-parent pair. -/
def cycleRecB : ChatInfo := sampleChat "b" 1 (some "a") 3

/-- Grandparent of the depth chain. -/
def chainG : ChatInfo := sampleChat "g" 1 none 1

/-- Middle record of the depth chain (child of `g`, updated later). -/
def chainP : ChatInfo := sampleChat "p" 2 (some "g") 1

/-- Deepest record of the depth chain (child of `p`, updated last). -/
def chainC : ChatInfo := sampleChat "c" 3 (some "p") 1

/-- Record `X` of the similarity scenario: 8 messages, identical preview,
no metadata hint. -/
def simRecX : ChatInfo :=
  { sampleChat "x" 10 none 8 with
    first_message_preview := "hello", last_message_preview := "hello" }

/-- Record `Y` of the similarity scenario: 4 messages, identical preview,
no metadata hint. -/
def simRecY : ChatInfo :=
  { sampleChat "y" 20 none 4 with
    first_message_preview := "hello", last_message_preview := "hello" }

/-- The record displayed in the cache-freshness scenario. -/
def recR : ChatInfo := sampleChat "r" 5 none 2

/-- The same record as fetched by a background refresh: identical id, one
more message. -/
def recR6 : ChatInfo := { recR with message_count := 6 }

/-- An empty forest (the store's initial `forest` value). -/
def emptyForest : ChatForest :=
  { trees := [], total_count := 0, nodes := fun _ => none }

/-- A baseline store state with no cache and nothing displayed. -/
def stBase : StoreState :=
  { is_loading := false, is_background_loading := false, error_message := none,
    chats := [], forest := emptyForest, search_keyword := "",
    sort_config := { by_ := .updated_at, order := .desc }, show_checkpoints := true,
    cache := none, cache_time := none }

/-- The store state of the cache-freshness scenario: `recR` displayed and
cached for character `A` at time `0`, and its node currently selected. -/
def stSelected : StoreState :=
  { stBase with
    chats := [recR]
    cache := some { chats := [recR], timestamp := 0, character := "A" }
    cache_time := some 0
    forest :=
      { trees := [{ id := "r", root := "r", display_name := "r", node_count := 1,
                    latest_update := 5, has_current := false, is_expanded := true,
                    nodeIds := ["r"] }]
        total_count := 1
        nodes := fun k =>
          if k = "r" then
            some { chat := recR, children := [], depth := 0,
                   is_expanded := true, is_selected := true }
          else none } }

/-- Ambient context for the cache-freshness scenario: 100 ms later, same
character, source returns the unchanged record set. -/
def ambSame : Ambient := { now := 100, char := some "A", fetch := .ok [recR] }

/-- Ambient context whose fetch returns the same id sequence with a changed
record body. -/
def ambChanged : Ambient := { now := 100, char := some "A", fetch := .ok [recR6] }

/-- Ambient context with a failing fetch. -/
def ambFail : Ambient := { now := 100, char := some "A", fetch := .error "boom" }



/-- The selected child node of the selection-independence witness. -/
def selChildNode : ChatTreeNode :=
  .mk (sampleChat "n" 1 none 1) [] 1 false true

/-- Its collapsed parent (a root), not itself selected. -/
def selParentNode : ChatTreeNode :=
  .mk (sampleChat "a" 2 none 1) [selChildNode] 0 false false


/-- The id sequence of a record list. -/
def idsOf (l : List ChatInfo) : List String := l.map ChatInfo.file_id

/-- The depth stored for a node id, if the id is in the arena. -/
def depthOf (m : NodeMap) (x : String) : Option Nat := (m x).map ArenaNode.depth

/-- Two arenas that agree on every node except for the order of its
children: the relation between the arena before and after the
children-sorting pass. -/
def ArenaSim (m m' : NodeMap) : Prop :=
  ∀ k, (m' k).map ArenaNode.chat = (m k).map ArenaNode.chat ∧
       (m' k).map ArenaNode.depth = (m k).map ArenaNode.depth ∧
       (m' k).map ArenaNode.is_expanded = (m k).map ArenaNode.is_expanded ∧
       (m' k).map ArenaNode.is_selected = (m k).map ArenaNode.is_selected ∧
       (childrenOf m' k).Perm (childrenOf m k)

/-- A height bound on the children graph of an arena: `HB m x (k+1)` means
every stored child of `x` is bounded by `k`.  On such nodes the fuelled
`flattenF` is exact for any fuel at least the bound. -/
inductive HB (m : NodeMap) : String → Nat → Prop where
  | node {x : String} {k : Nat} :
      (∀ y ∈ childrenOf m x, HB m y k) → HB m x (k + 1)

/-- The multiset of all children entries of the given ids. -/
def chSumM (m : NodeMap) (ids : List String) : Multiset String :=
  (ids.map (fun x => ((childrenOf m x : List String) : Multiset String))).sum


/-- Chain fixtures whose sort order (newest first) puts every parent before
its children. -/
def orderedG : ChatInfo := sampleChat "g" 3 none 1

/-- Middle record of the ordered chain. -/
def orderedP : ChatInfo := sampleChat "p" 2 (some "g") 1

/-- Deepest record of the ordered chain. -/
def orderedC : ChatInfo := sampleChat "c" 1 (some "p") 1

/-- The property "every node object of the arena has the builder's default
view flags: not selected, expanded". -/
def DefaultFlags (m : NodeMap) : Prop :=
  ∀ id nd, m id = some nd → nd.is_selected = false ∧ nd.is_expanded = true

theorem insertCmp_perm (cmp : α → α → Int) (a : α) (l : List α) :
    (insertCmp cmp a l).Perm (a :: l) := by
  induction l with
  | nil => simp [insertCmp]
  | cons b bs ih =>
      by_cases h : cmp a b ≤ 0
      · simp [insertCmp, h]
      · simp only [insertCmp, h, if_neg, ite_false]
        exact (List.Perm.cons b ih).trans (List.Perm.swap a b bs)

theorem sortJS_perm (cmp : α → α → Int) (l : List α) :
    (sortJS cmp l).Perm l := by
  induction l with
  | nil => simp [sortJS]
  | cons a as ih =>
      exact (insertCmp_perm cmp a (sortJS cmp as)).trans (ih.cons a)

theorem sortJS_length (cmp : α → α → Int) (l : List α) :
    (sortJS cmp l).length = l.length :=
  (sortJS_perm cmp l).length_eq

theorem assocGet_cons (a : String × α) (m : List (String × α)) (k : String) :
    assocGet (a :: m) k = if a.1 = k then some a.2 else assocGet m k := by
  by_cases h : a.1 = k <;> simp [assocGet, List.find?, h]

theorem assocGet_assocSet_self (m : List (String × α)) (k : String) (v : α) :
    assocGet (assocSet m k v) k = some v := by
  induction m with
  | nil => simp [assocSet, assocGet, List.find?]
  | cons a as ih =>
      by_cases ha : a.1 = k
      · have hany : (a :: as).any (fun e => e.1 = k) = true := by
          simp [List.any_cons, ha]
        simp [assocSet, hany, ha, assocGet_cons]
      · have hany : (a :: as).any (fun e => e.1 = k) = as.any (fun e => e.1 = k) := by
          simp [List.any_cons, ha]
        by_cases has : as.any (fun e => e.1 = k) = true
        · have h1 : assocSet (a :: as) k v =
              a :: (as.map (fun e => if e.1 = k then (k, v) else e)) := by
            simp [assocSet, hany, has, ha]
          have h2 : assocSet as k v = as.map (fun e => if e.1 = k then (k, v) else e) := by
            simp [assocSet, has]
          rw [h1, assocGet_cons, if_neg ha, ← h2, ih]
        · have h1 : assocSet (a :: as) k v = a :: (as ++ [(k, v)]) := by
            simp only [assocSet, hany, has]
            simp [has]
          have h2 : assocSet as k v = as ++ [(k, v)] := by
            simp [assocSet, has]
          rw [h1, assocGet_cons, if_neg ha, ← h2, ih]

theorem assocGet_assocSet_ne (m : List (String × α)) (k k' : String) (v : α)
    (h : k' ≠ k) : assocGet (assocSet m k v) k' = assocGet m k' := by
  have hk : ¬ ((k, v).1 = k') := fun hh => h hh.symm
  induction m with
  | nil => simp [assocSet, assocGet_cons, hk, assocGet]
  | cons a as ih =>
      by_cases has : (a :: as).any (fun e => e.1 = k) = true
      · have h1 : assocSet (a :: as) k v =
            (if a.1 = k then (k, v) else a) :: (as.map (fun e => if e.1 = k then (k, v) else e)) := by
          simp [assocSet, has]
        rw [h1, assocGet_cons, assocGet_cons]
        by_cases ha : a.1 = k
        · have ha' : ¬ (a.1 = k') := by rw [ha]; exact fun hh => h hh.symm
          simp only [ha, if_pos, if_neg hk, if_neg ha']
          by_cases has2 : as.any (fun e => e.1 = k) = true
          · have h2 : assocSet as k v = as.map (fun e => if e.1 = k then (k, v) else e) := by
              simp [assocSet, has2]
            rw [← h2, ih]
          · -- every occurrence of key `k` is in the head, so the mapped tail is unchanged
            have hmap : as.map (fun e => if e.1 = k then (k, v) else e) = as := by
              have : ∀ e ∈ as, (if e.1 = k then (k, v) else e) = id e := by
                intro e he
                have : ¬ (e.1 = k) := by
                  intro hk2
                  exact has2 (List.any_eq_true.mpr ⟨e, he, by simp [hk2]⟩)
                simp [this]
              rw [List.map_congr_left this, List.map_id]
            rw [hmap]
        · simp only [if_neg ha]
          by_cases has2 : as.any (fun e => e.1 = k) = true
          · have h2 : assocSet as k v = as.map (fun e => if e.1 = k then (k, v) else e) := by
              simp [assocSet, has2]
            by_cases ha' : a.1 = k'
            · simp [ha']
            · simp only [if_neg ha', ← h2, ih]
          · have : as.any (fun e => e.1 = k) = true := by
              rcases List.any_eq_true.mp has with ⟨e, he, hke⟩
              rcases List.mem_cons.mp he with he | he
              · exfalso; apply ha; have := of_decide_eq_true hke; rw [← he]; exact this
              · exact List.any_eq_true.mpr ⟨e, he, hke⟩
            exact absurd this has2
      · have h1 : assocSet (a :: as) k v = a :: (as ++ [(k, v)]) := by
          simp only [assocSet, has]
          simp [has]
        have has2 : ¬ (as.any (fun e => e.1 = k) = true) := by
          intro hk2
          rcases List.any_eq_true.mp hk2 with ⟨e, he, hke⟩
          exact has (List.any_eq_true.mpr ⟨e, List.mem_cons_of_mem a he, hke⟩)
        have h2 : assocSet as k v = as ++ [(k, v)] := by
          simp [assocSet, has2]
        rw [h1, assocGet_cons, assocGet_cons, ← h2, ih]

theorem sortChats_perm (chats : List ChatInfo) (config : SortConfig) :
    (sortChats chats config).Perm chats :=
  sortJS_perm _ chats

theorem stripJsonlAll_no_suffix (s : List Char) :
    ¬ (suffixJsonl.isSuffixOf (stripJsonlAll s) = true) := by
  induction s using stripJsonlAll.induct with
  | case1 s h ih => rw [stripJsonlAll, dif_pos h]; exact ih
  | case2 s h => rw [stripJsonlAll, dif_neg h]; exact h

theorem stripJsonlAll_append (b : List Char)
    (h : ¬ (suffixJsonl.isSuffixOf b = true)) :
    stripJsonlAll (b ++ suffixJsonl) = b := by
  have hs : suffixJsonl.isSuffixOf (b ++ suffixJsonl) = true :=
    List.isSuffixOf_iff_suffix.mpr ⟨b, rfl⟩
  rw [stripJsonlAll, dif_pos hs]
  have hlen : (b ++ suffixJsonl).length - 6 = b.length := by
    simp [suffixJsonl]
  rw [hlen, List.take_left]
  rw [stripJsonlAll, dif_neg h]

/-- **C10.**  File-name normalization is idempotent: for every input string,
`cleanFileName` returns a full name carrying exactly one `.jsonl` suffix and
a base name carrying none; applying `cleanFileName` to its own full output
returns the same pair; and the file name `deleteChatDirect` sends
(`deleteChatFileName`) is exactly that full name, so it carries exactly one
`.jsonl` suffix even when the input carries several. -/
theorem cleanFileName_idempotent (name : String) :
    (∃ b, (cleanFileName name).2.data = b ++ suffixJsonl ∧
        ¬ (suffixJsonl.isSuffixOf b = true)) ∧
    ¬ (suffixJsonl.isSuffixOf (cleanFileName name).1.data = true) ∧
    cleanFileName (cleanFileName name).2 = cleanFileName name ∧
    deleteChatFileName name = (cleanFileName name).2 := by
  have hbase : ¬ (suffixJsonl.isSuffixOf (stripJsonlAll name.data) = true) :=
    stripJsonlAll_no_suffix name.data
  refine ⟨⟨stripJsonlAll name.data, rfl, hbase⟩, hbase, ?_, rfl⟩
  show cleanFileName ⟨stripJsonlAll name.data ++ suffixJsonl⟩ = _
  unfold cleanFileName
  simp only [String.data]
  rw [stripJsonlAll_append _ hbase]

/-- **C5, counterexample.**  Two records with identical message previews, no
metadata parent hints, X with 8 messages and Y with 4: `detectBranchRelations`
returns the empty mapping, not `{Y → X}` — there is no content-similarity
fallback in the resolver. -/
theorem detectBranchRelations_no_similarity_cex :
    detectBranchRelations [simRecX, simRecY] = [] ∧
    ¬ (assocGet (detectBranchRelations [simRecX, simRecY]) "y" = some "x") := by
  decide

/-- **C5, amended.**  When no record carries a truthy metadata parent hint,
`detectBranchRelations` performs no content comparison at all and returns the
empty mapping. -/
theorem detectBranchRelations_empty_of_no_hints (chats : List ChatInfo)
    (h : ∀ c ∈ chats, isTruthy c.parent_chat = false) :
    detectBranchRelations chats = [] := by
  unfold detectBranchRelations
  suffices hgen : ∀ (l : List ChatInfo) (rels : List (String × String)),
      (∀ c ∈ l, isTruthy c.parent_chat = false) →
      l.foldl
        (fun rels c =>
          match c.parent_chat with
          | some hint =>
              if hint ≠ "" then
                match assocGet (nameToId chats) hint with
                | some parent_id =>
                    if parent_id ≠ c.file_id then assocSet rels c.file_id parent_id
                    else rels
                | none => rels
              else rels
          | none => rels)
        rels = rels by
    exact hgen chats [] h
  intro l
  induction l with
  | nil => intro rels _; rfl
  | cons c cs ih =>
      intro rels hall
      have hc : isTruthy c.parent_chat = false := hall c (List.mem_cons_self c cs)
      have hcs : ∀ x ∈ cs, isTruthy x.parent_chat = false := fun x hx =>
        hall x (List.mem_cons_of_mem c hx)
      rw [List.foldl_cons]
      cases hp : c.parent_chat with
      | none => simpa [hp] using ih rels hcs
      | some s =>
          have hs : s = "" := by
            rw [hp] at hc
            simpa [isTruthy] using hc
          subst hs
          simpa using ih rels hcs

/-- **C5, amended, witness.** -/
theorem detectBranchRelations_empty_of_no_hints_w :
    (∀ c ∈ [simRecX, simRecY], isTruthy c.parent_chat = false) ∧
    detectBranchRelations [simRecX, simRecY] = [] :=
  ⟨by decide, detectBranchRelations_empty_of_no_hints [simRecX, simRecY] (by decide)⟩

theorem assocGet_assocSet_cases (t : List (String × α)) (k h : String) (v p : α)
    (hget : assocGet (assocSet t k v) h = some p) :
    (h = k ∧ p = v) ∨ (h ≠ k ∧ assocGet t h = some p) := by
  by_cases hk : h = k
  · subst hk
    rw [assocGet_assocSet_self] at hget
    exact .inl ⟨rfl, (Option.some_injective _ hget).symm⟩
  · rw [assocGet_assocSet_ne _ _ _ _ hk] at hget
    exact .inr ⟨hk, hget⟩

theorem nameToId_values (chats : List ChatInfo) (h p : String)
    (hget : assocGet (nameToId chats) h = some p) :
    p ∈ chats.map ChatInfo.file_id := by
  unfold nameToId at hget
  suffices hgen : ∀ (l : List ChatInfo) (t : List (String × String)),
      (∀ h' p', assocGet t h' = some p' → p' ∈ chats.map ChatInfo.file_id) →
      (∀ c ∈ l, c.file_id ∈ chats.map ChatInfo.file_id) →
      ∀ h' p', assocGet
          (l.foldl (fun t c =>
              assocSet (assocSet (assocSet t c.file_id c.file_id)
                c.file_name c.file_id) (stripExtOnce c.file_name) c.file_id) t)
          h' = some p' →
        p' ∈ chats.map ChatInfo.file_id by
    refine hgen chats [] (fun h' p' hx => ?_) (fun c hc => List.mem_map.mpr ⟨c, hc, rfl⟩) h p hget
    simp [assocGet, List.find?] at hx
  intro l
  induction l with
  | nil => intro t ht _ h' p' hx; exact ht h' p' hx
  | cons c cs ih =>
      intro t ht hl h' p' hx
      rw [List.foldl_cons] at hx
      refine ih _ (fun h'' p'' hx2 => ?_) (fun x hx3 => hl x (List.mem_cons_of_mem c hx3)) h' p' hx
      have hc : c.file_id ∈ chats.map ChatInfo.file_id := hl c (List.mem_cons_self c cs)
      rcases assocGet_assocSet_cases _ _ _ _ _ hx2 with ⟨_, hp⟩ | ⟨_, hx3⟩
      · exact hp ▸ hc
      · rcases assocGet_assocSet_cases _ _ _ _ _ hx3 with ⟨_, hp⟩ | ⟨_, hx4⟩
        · exact hp ▸ hc
        · rcases assocGet_assocSet_cases _ _ _ _ _ hx4 with ⟨_, hp⟩ | ⟨_, hx5⟩
          · exact hp ▸ hc
          · exact ht _ _ hx5

/-- **C7.**  Metadata-driven branch resolution: `detectBranchRelations` is a
pure function of its input; on the empty record set it returns the empty
mapping; and every entry `c ↦ p` of its result arises from a record with
`file_id = c` carrying a truthy parent hint that the alias table `nameToId`
(mapping each record's id, full file name, and suffix-stripped file name to
its canonical id) resolves to `p`, where `p` is a known record id distinct
from `c` — self-resolving hints and hints resolving to no known record
never produce entries. -/
theorem detectBranchRelations_spec :
    detectBranchRelations [] = [] ∧
    ∀ (chats : List ChatInfo) (c p : String),
      assocGet (detectBranchRelations chats) c = some p →
      p ≠ c ∧ p ∈ chats.map ChatInfo.file_id ∧
      ∃ chat ∈ chats, chat.file_id = c ∧
        ∃ hint, chat.parent_chat = some hint ∧ hint ≠ "" ∧
          assocGet (nameToId chats) hint = some p := by
  constructor
  · rfl
  · intro chats c p hget
    unfold detectBranchRelations at hget
    suffices hgen : ∀ (l : List ChatInfo) (rels : List (String × String)),
        (∀ c' p', assocGet rels c' = some p' →
          p' ≠ c' ∧ p' ∈ chats.map ChatInfo.file_id ∧
          ∃ chat ∈ chats, chat.file_id = c' ∧
            ∃ hint, chat.parent_chat = some hint ∧ hint ≠ "" ∧
              assocGet (nameToId chats) hint = some p') →
        (∀ x ∈ l, x ∈ chats) →
        ∀ c' p', assocGet
            (l.foldl (fun rels c0 =>
                match c0.parent_chat with
                | some hint =>
                    if hint ≠ "" then
                      match assocGet (nameToId chats) hint with
                      | some parent_id =>
                          if parent_id ≠ c0.file_id then assocSet rels c0.file_id parent_id
                          else rels
                      | none => rels
                    else rels
                | none => rels)
              rels)
            c' = some p' →
          p' ≠ c' ∧ p' ∈ chats.map ChatInfo.file_id ∧
          ∃ chat ∈ chats, chat.file_id = c' ∧
            ∃ hint, chat.parent_chat = some hint ∧ hint ≠ "" ∧
              assocGet (nameToId chats) hint = some p' by
      refine hgen chats [] (fun c' p' hx => ?_) (fun x hx => hx) c p hget
      simp [assocGet, List.find?] at hx
    intro l
    induction l with
    | nil => intro rels hrels _ c' p' hx; exact hrels c' p' hx
    | cons c0 cs ih =>
        intro rels hrels hl c' p' hx
        rw [List.foldl_cons] at hx
        refine ih _ (fun c'' p'' hx2 => ?_) (fun x hx3 => hl x (List.mem_cons_of_mem c0 hx3)) c' p' hx
        have hc0 : c0 ∈ chats := hl c0 (List.mem_cons_self c0 cs)
        rcases hp : c0.parent_chat with _ | hint
        · rw [hp] at hx2; exact hrels c'' p'' hx2
        · simp only [hp] at hx2
          by_cases hh : hint ≠ ""
          · simp only [if_pos hh] at hx2
            rcases hres : assocGet (nameToId chats) hint with _ | parent_id
            · simp only [hres] at hx2
              exact hrels c'' p'' hx2
            · simp only [hres] at hx2
              by_cases hne : parent_id ≠ c0.file_id
              · simp only [if_pos hne] at hx2
                rcases assocGet_assocSet_cases _ _ _ _ _ hx2 with ⟨hck, hpv⟩ | ⟨_, hx3⟩
                · rw [hck, hpv]
                  exact ⟨hne, nameToId_values chats hint parent_id hres,
                    c0, hc0, rfl, hint, hp, hh, hres⟩
                · exact hrels c'' p'' hx3
              · simp only [if_neg hne] at hx2
                exact hrels c'' p'' hx2
          · simp only [if_neg hh] at hx2
            exact hrels c'' p'' hx2

/-- **C7, witness.** -/
theorem detectBranchRelations_spec_w :
    (assocGet (detectBranchRelations [sampleChat "b" 1 none 1, sampleChat "a" 2 (some "b.jsonl") 1]) "a"
      = some "b") ∧
    ("b" ≠ "a" ∧ "b" ∈ [sampleChat "b" 1 none 1, sampleChat "a" 2 (some "b.jsonl") 1].map ChatInfo.file_id ∧
      ∃ chat ∈ [sampleChat "b" 1 none 1, sampleChat "a" 2 (some "b.jsonl") 1], chat.file_id = "a" ∧
        ∃ hint, chat.parent_chat = some hint ∧ hint ≠ "" ∧
          assocGet (nameToId [sampleChat "b" 1 none 1, sampleChat "a" 2 (some "b.jsonl") 1]) hint = some "b") :=
  ⟨by decide, detectBranchRelations_spec.2 _ "a" "b" (by decide)⟩

theorem foldl_preserves {α β : Type} (P : β → Prop) {f : β → α → β}
    (h : ∀ b a, P b → P (f b a)) :
    ∀ (l : List α) (b : β), P b → P (l.foldl f b) := by
  intro l
  induction l with
  | nil => intro b hb; exact hb
  | cons a as ih => intro b hb; exact ih _ (h b a hb)

theorem mapInsert_flags {m : NodeMap} (k : String) (v : ArenaNode)
    (hm : DefaultFlags m)
    (hv : v.is_selected = false ∧ v.is_expanded = true) :
    DefaultFlags (mapInsert m k v) := by
  intro id nd h
  unfold mapInsert at h
  by_cases hik : id = k
  · rw [if_pos hik] at h
    cases h
    exact hv
  · rw [if_neg hik] at h
    exact hm id nd h

theorem initMap_flags (l : List ChatInfo) : DefaultFlags (initMap l) := by
  unfold initMap
  refine foldl_preserves DefaultFlags ?_ l _ ?_
  · intro m c hm
    exact mapInsert_flags _ _ hm ⟨rfl, rfl⟩
  · intro id nd h
    cases h

theorem attachStep_flags {st : BuildSt} {c : ChatInfo}
    (hm : DefaultFlags st.map) : DefaultFlags (attachStep st c).map := by
  unfold attachStep
  cases hc : st.map c.file_id with
  | none => exact hm
  | some node =>
      cases hp : c.parent_chat with
      | none => exact hm
      | some p =>
          by_cases hne : p ≠ ""
          · simp only [if_pos hne]
            cases hpn : st.map p with
            | none => exact hm
            | some parent_node =>
                simp only []
                have h1 : DefaultFlags
                    (mapInsert st.map c.file_id { node with depth := parent_node.depth + 1 }) :=
                  mapInsert_flags _ _ hm (by simpa using hm c.file_id node hc)
                cases hmm : mapInsert st.map c.file_id
                    { node with depth := parent_node.depth + 1 } p with
                | none => simpa [hmm] using h1
                | some pn =>
                    simp only [hmm]
                    exact mapInsert_flags _ _ h1 (by simpa using h1 p pn hmm)
          · simp only [if_neg hne]
            exact hm

theorem buildArena_flags (l : List ChatInfo) : DefaultFlags (buildArena l).map := by
  unfold buildArena
  refine foldl_preserves (fun st : BuildSt => DefaultFlags st.map) ?_ l _ (initMap_flags l)
  intro st c hst
  exact attachStep_flags hst

theorem sortChildrenDesc_flags (fuel : Nat) :
    ∀ (m : NodeMap) (x : String), DefaultFlags m →
      DefaultFlags (sortChildrenDesc fuel m x) := by
  induction fuel with
  | zero => intro m x hm; exact hm
  | succ fuel ih =>
      intro m x hm
      rw [sortChildrenDesc]
      cases hx : m x with
      | none => exact hm
      | some nd0 =>
          by_cases hlen : nd0.children.length > 0
          · simp only [if_pos hlen]
            refine foldl_preserves DefaultFlags ?_ _ _ ?_
            · intro m' y hm'
              exact ih m' y hm'
            · exact mapInsert_flags _ _ hm (by simpa using hm x nd0 hx)
          · simp only [if_neg hlen]
            exact hm

theorem buildChatForest_flags (chats : List ChatInfo) (sort_config : Option SortConfig)
    (detect_branches : Bool) :
    DefaultFlags (buildChatForest chats sort_config detect_branches).nodes := by
  unfold buildChatForest sortPass
  refine foldl_preserves DefaultFlags ?_ _ _ (buildArena_flags _)
  intro m r hm
  exact sortChildrenDesc_flags _ m r hm

/-- **C8.**  Foreground fetch failure atomicity: when a forced (or uncached)
`loadChats` fetch fails, the error message becomes a persistent error state
(`error_message` set to the failure's message), while the cache, the
displayed records, the forest and the cache timestamp are all left exactly
as they were. -/
theorem loadChats_failure_atomic (force : Bool) (amb : Ambient) (st : StoreState) (e : String)
    (hfetch : amb.fetch = .error e)
    (hforce : force = true ∨ isCacheValid amb st = false) :
    (loadChats force amb st).error_message = some e ∧
    (loadChats force amb st).cache = st.cache ∧
    (loadChats force amb st).chats = st.chats ∧
    (loadChats force amb st).forest = st.forest ∧
    (loadChats force amb st).cache_time = st.cache_time := by
  have hv : isCacheValid amb { st with error_message := none } = isCacheValid amb st := rfl
  unfold loadChats
  rcases hforce with hf | hf
  · subst hf
    simp [hfetch]
  · simp [hv, hf, hfetch]

/-- **C8, witness.** -/
theorem loadChats_failure_atomic_w :
    (ambFail.fetch = .error "boom" ∧ (true = true ∨ isCacheValid ambFail stBase = false)) ∧
    ((loadChats true ambFail stBase).error_message = some "boom" ∧
      (loadChats true ambFail stBase).cache = stBase.cache ∧
      (loadChats true ambFail stBase).chats = stBase.chats ∧
      (loadChats true ambFail stBase).forest = stBase.forest ∧
      (loadChats true ambFail stBase).cache_time = stBase.cache_time) :=
  ⟨⟨rfl, Or.inl rfl⟩, loadChats_failure_atomic true ambFail stBase "boom" rfl (Or.inl rfl)⟩

/-- **C6, counterexample.**  A background refresh fetching the same id
sequence with a changed record body does not refresh "only the cache
timestamp": the cache's record array is replaced by the fetched one. -/
theorem refreshInBackground_not_only_timestamp_cex :
    ([recR6].map ChatInfo.file_id = stSelected.chats.map ChatInfo.file_id) ∧
    ambChanged.fetch = .ok [recR6] ∧
    ((refreshInBackground ambChanged stSelected).cache.map ChatCache.chats
      ≠ stSelected.cache.map ChatCache.chats) :=
  ⟨by decide, rfl, by decide⟩

/-- **C6, amended.**  Change-aware background refresh: when the fetched id
sequence equals the displayed one, the displayed records, forest (hence
every displayed node object with its flags) and error state are left
untouched, while the cache is replaced by the fetched records with a fresh
timestamp (not only the timestamp); when the sequences differ, the displayed
records and the cache are replaced and the forest is rebuilt, so every node
of the new forest carries default flags and any prior selection is lost. -/
theorem refreshInBackground_change_aware (amb : Ambient) (st : StoreState)
    (new_chats : List ChatInfo) (n : String)
    (hflag : st.is_background_loading = false)
    (hfetch : amb.fetch = .ok new_chats)
    (hchar : amb.char = some n) :
    (new_chats.map ChatInfo.file_id = st.chats.map ChatInfo.file_id →
      (refreshInBackground amb st).chats = st.chats ∧
      (refreshInBackground amb st).forest = st.forest ∧
      (refreshInBackground amb st).error_message = st.error_message ∧
      (refreshInBackground amb st).cache =
        some { chats := new_chats, timestamp := amb.now, character := n } ∧
      (refreshInBackground amb st).cache_time = some amb.now) ∧
    (new_chats.map ChatInfo.file_id ≠ st.chats.map ChatInfo.file_id →
      (refreshInBackground amb st).chats = new_chats ∧
      (refreshInBackground amb st).cache =
        some { chats := new_chats, timestamp := amb.now, character := n } ∧
      (refreshInBackground amb st).forest =
        buildChatForest (filterChats new_chats st.search_keyword st.show_checkpoints)
          (some st.sort_config) true ∧
      DefaultFlags (refreshInBackground amb st).forest.nodes) := by
  constructor
  · intro hids
    unfold refreshInBackground
    rw [hflag]
    simp only [Bool.false_eq_true, if_false, hfetch]
    rw [if_neg (by simpa using hids)]
    simp [updateCache, hchar]
  · intro hids
    unfold refreshInBackground
    rw [hflag]
    simp only [Bool.false_eq_true, if_false, hfetch]
    rw [if_pos (by simpa using hids)]
    refine ⟨by simp [rebuildForest, updateCache, hchar], by simp [rebuildForest, updateCache, hchar], ?_, ?_⟩
    · simp [rebuildForest, updateCache, hchar]
    · simpa [rebuildForest, updateCache, hchar] using
        buildChatForest_flags (filterChats new_chats st.search_keyword st.show_checkpoints)
          (some st.sort_config) true

/-- **C6, amended, witness** (equal-id-sequence branch at a concrete input). -/
theorem refreshInBackground_change_aware_w :
    (stSelected.is_background_loading = false ∧
      ambChanged.fetch = .ok [recR6] ∧
      ambChanged.char = some "A" ∧
      [recR6].map ChatInfo.file_id = stSelected.chats.map ChatInfo.file_id) ∧
    ((refreshInBackground ambChanged stSelected).chats = stSelected.chats ∧
      (refreshInBackground ambChanged stSelected).forest = stSelected.forest ∧
      (refreshInBackground ambChanged stSelected).error_message = stSelected.error_message ∧
      (refreshInBackground ambChanged stSelected).cache =
        some { chats := [recR6], timestamp := ambChanged.now, character := "A" } ∧
      (refreshInBackground ambChanged stSelected).cache_time = some ambChanged.now) :=
  ⟨⟨rfl, rfl, rfl, by decide⟩,
    (refreshInBackground_change_aware ambChanged stSelected [recR6] "A" rfl rfl rfl).1 (by decide)⟩

/-- **C3, counterexample.**  A second `loadChats(false)` within the TTL
window against an unchanged source keeps the displayed record id sequence,
but does not keep the node flags: the cached path unconditionally rebuilds
the forest, so a previously selected node comes back deselected. -/
theorem loadChats_cached_resets_selection_cex :
    isCacheValid ambSame stSelected = true ∧
    ((stSelected.forest.nodes "r").map ArenaNode.is_selected = some true) ∧
    (((loadChats false ambSame stSelected).forest.nodes "r").map ArenaNode.is_selected
      = some false) ∧
    ((loadChats false ambSame stSelected).chats.map ChatInfo.file_id
      = stSelected.chats.map ChatInfo.file_id) := by
  decide

theorem loadChats_cached (amb : Ambient) (st : StoreState) (c : ChatCache)
    (hc : st.cache = some c) (hvalid : isCacheValid amb st = true) :
    loadChats false amb st =
      refreshInBackground amb (rebuildForest
        { st with error_message := none, chats := c.chats, cache_time := some c.timestamp }) := by
  have hv : isCacheValid amb { st with error_message := none } = isCacheValid amb st := rfl
  unfold loadChats
  simp only [hv, hvalid]
  rw [if_pos ⟨trivial, trivial⟩, hc]

/-- **C3, amended.**  A second `loadChats(false)` within the TTL window with
an unchanged source and owner leaves the displayed record id sequence
unchanged (the same cached records are served, and the background refresh
finds an identical id sequence and leaves the view untouched), but the
forest is rebuilt from the cached records, so every displayed node comes
back with the builder's default flags (not selected, expanded); per-node
selection/expansion state is preserved only when it already equals those
defaults. -/
theorem loadChats_cached_rebuilds (amb : Ambient) (st : StoreState)
    (c : ChatCache) (new_chats : List ChatInfo) (n : String)
    (hc : st.cache = some c)
    (hchats : st.chats = c.chats)
    (hvalid : isCacheValid amb st = true)
    (hflag : st.is_background_loading = false)
    (hfetch : amb.fetch = .ok new_chats)
    (hids : new_chats.map ChatInfo.file_id = c.chats.map ChatInfo.file_id)
    (hchar : amb.char = some n) :
    (loadChats false amb st).chats = st.chats ∧
    (loadChats false amb st).forest =
      buildChatForest (filterChats c.chats st.search_keyword st.show_checkpoints)
        (some st.sort_config) true ∧
    DefaultFlags (loadChats false amb st).forest.nodes := by
  rw [loadChats_cached amb st c hc hvalid]
  have hres := refreshInBackground_change_aware amb
    (rebuildForest { st with error_message := none, chats := c.chats, cache_time := some c.timestamp })
    new_chats n (by simpa [rebuildForest] using hflag) hfetch hchar
  have hids2 : new_chats.map ChatInfo.file_id =
      (rebuildForest
        { st with error_message := none, chats := c.chats, cache_time := some c.timestamp
        }).chats.map ChatInfo.file_id := by
    simpa [rebuildForest] using hids
  obtain ⟨hchats2, hforest2, _, _, _⟩ := hres.1 hids2
  refine ⟨?_, ?_, ?_⟩
  · rw [hchats2]
    simp [rebuildForest, hchats]
  · rw [hforest2]
    simp [rebuildForest]
  · rw [hforest2]
    simpa [rebuildForest] using
      buildChatForest_flags (filterChats c.chats st.search_keyword st.show_checkpoints)
        (some st.sort_config) true

/-- **C3, amended, witness.** -/
theorem loadChats_cached_rebuilds_w :
    (stSelected.cache = some { chats := [recR], timestamp := 0, character := "A" } ∧
      stSelected.chats = [recR] ∧
      isCacheValid ambSame stSelected = true ∧
      stSelected.is_background_loading = false ∧
      ambSame.fetch = .ok [recR] ∧
      [recR].map ChatInfo.file_id = [recR].map ChatInfo.file_id ∧
      ambSame.char = some "A") ∧
    ((loadChats false ambSame stSelected).chats = stSelected.chats ∧
      (loadChats false ambSame stSelected).forest =
        buildChatForest (filterChats [recR] stSelected.search_keyword stSelected.show_checkpoints)
          (some stSelected.sort_config) true ∧
      DefaultFlags (loadChats false ambSame stSelected).forest.nodes) :=
  ⟨⟨rfl, rfl, by decide, rfl, rfl, rfl, rfl⟩,
    loadChats_cached_rebuilds ambSame stSelected
      { chats := [recR], timestamp := 0, character := "A" } [recR] "A"
      rfl rfl (by decide) rfl rfl rfl rfl⟩
theorem flattenTreeAll_cons (c : ChatInfo) (ch : List ChatTreeNode) (d : Nat)
    (e s : Bool) (rest : List ChatTreeNode) :
    flattenTreeAll (ChatTreeNode.mk c ch d e s :: rest) =
      ChatTreeNode.mk c ch d e s :: (flattenTreeAll ch ++ flattenTreeAll rest) := by
  rw [flattenTreeAll]

theorem mem_flattenTreeAll_of_mem {x : ChatTreeNode} {l : List ChatTreeNode}
    (h : x ∈ l) : x ∈ flattenTreeAll l := by
  induction l using flattenTreeAll.induct with
  | case1 => cases h
  | case2 c ch d e s rest ih1 ih2 =>
      rw [flattenTreeAll_cons]
      rcases List.mem_cons.mp h with h | h
      · exact h ▸ List.mem_cons_self _ _
      · exact List.mem_cons_of_mem _ (List.mem_append_right _ (ih2 h))

theorem mem_flattenTreeAll_trans {a x : ChatTreeNode} :
    ∀ {l : List ChatTreeNode}, a ∈ flattenTreeAll l → x ∈ flattenTreeAll a.children →
      x ∈ flattenTreeAll l := by
  intro l
  induction l using flattenTreeAll.induct with
  | case1 => intro h; rw [flattenTreeAll] at h; cases h
  | case2 c ch d e s rest ih1 ih2 =>
      intro ha hx
      rw [flattenTreeAll_cons] at ha ⊢
      rcases List.mem_cons.mp ha with ha | ha
      · subst ha
        exact List.mem_cons_of_mem _ (List.mem_append_left _ hx)
      · rcases List.mem_append.mp ha with ha | ha
        · exact List.mem_cons_of_mem _ (List.mem_append_left _ (ih1 ha hx))
        · exact List.mem_cons_of_mem _ (List.mem_append_right _ (ih2 ha hx))

theorem getSelectedNodes_cons (c : ChatInfo) (ch : List ChatTreeNode) (d : Nat)
    (e s : Bool) (rest : List ChatTreeNode) :
    getSelectedNodes (ChatTreeNode.mk c ch d e s :: rest) =
      (if s then [ChatTreeNode.mk c ch d e s] else []) ++
      getSelectedNodes ch ++ getSelectedNodes rest := by
  rw [getSelectedNodes]

theorem mem_getSelectedNodes_iff {x : ChatTreeNode} :
    ∀ {l : List ChatTreeNode},
      x ∈ getSelectedNodes l ↔ x ∈ flattenTreeAll l ∧ x.is_selected = true := by
  intro l
  induction l using flattenTreeAll.induct with
  | case1 =>
      rw [getSelectedNodes, flattenTreeAll]
      simp
  | case2 c ch d e s rest ih1 ih2 =>
      rw [getSelectedNodes_cons, flattenTreeAll_cons]
      constructor
      · intro h
        rcases List.mem_append.mp h with h | h
        · rcases List.mem_append.mp h with h | h
          · by_cases hs : s = true
            · rw [if_pos hs] at h
              rcases List.mem_singleton.mp h with rfl
              exact ⟨List.mem_cons_self _ _, hs⟩
            · rw [if_neg hs] at h; cases h
          · have := ih1.mp h
            exact ⟨List.mem_cons_of_mem _ (List.mem_append_left _ this.1), this.2⟩
        · have := ih2.mp h
          exact ⟨List.mem_cons_of_mem _ (List.mem_append_right _ this.1), this.2⟩
      · rintro ⟨hmem, hsel⟩
        rcases List.mem_cons.mp hmem with rfl | hmem
        · have hs : s = true := hsel
          rw [hs]
          exact List.mem_append.mpr (.inl (List.mem_append.mpr (.inl (by simp))))
        · rcases List.mem_append.mp hmem with hmem | hmem
          · exact List.mem_append.mpr (.inl (List.mem_append.mpr (.inr (ih1.mpr ⟨hmem, hsel⟩))))
          · exact List.mem_append.mpr (.inr (ih2.mpr ⟨hmem, hsel⟩))

theorem flattenTree_cons (c : ChatInfo) (ch : List ChatTreeNode) (d : Nat)
    (e s : Bool) (rest : List ChatTreeNode) :
    flattenTree (ChatTreeNode.mk c ch d e s :: rest) =
      ChatTreeNode.mk c ch d e s ::
      ((if e then flattenTree ch else []) ++ flattenTree rest) := by
  rw [flattenTree]

theorem visibleIn_of_mem {x : ChatTreeNode} {l : List ChatTreeNode} (h : x ∈ l) :
    VisibleIn x l := .here h

theorem visibleIn_cons {x t : ChatTreeNode} {rest : List ChatTreeNode}
    (h : VisibleIn x rest) : VisibleIn x (t :: rest) := by
  cases h with
  | here hm => exact .here (List.mem_cons_of_mem _ hm)
  | deeper hm he hv => exact .deeper (List.mem_cons_of_mem _ hm) he hv

theorem visibleIn_cons_inv {x : ChatTreeNode} {c : ChatInfo} {ch : List ChatTreeNode}
    {d : Nat} {e s : Bool} {rest : List ChatTreeNode}
    (h : VisibleIn x (ChatTreeNode.mk c ch d e s :: rest)) :
    x = ChatTreeNode.mk c ch d e s ∨
    (e = true ∧ VisibleIn x ch) ∨ VisibleIn x rest := by
  cases h with
  | here hm =>
      rcases List.mem_cons.mp hm with hm | hm
      · exact .inl hm
      · exact .inr (.inr (.here hm))
  | deeper hm he hv =>
      rcases List.mem_cons.mp hm with hm | hm
      · subst hm
        exact .inr (.inl ⟨he, hv⟩)
      · exact .inr (.inr (.deeper hm he hv))

theorem mem_flattenTree_iff_visibleIn {x : ChatTreeNode} :
    ∀ {l : List ChatTreeNode}, x ∈ flattenTree l ↔ VisibleIn x l := by
  intro l
  induction l using flattenTreeAll.induct with
  | case1 =>
      rw [flattenTree]
      constructor
      · intro h; cases h
      · intro h; cases h with
        | here hm => cases hm
        | deeper hm _ _ => cases hm
  | case2 c ch d e s rest ih1 ih2 =>
      rw [flattenTree_cons]
      constructor
      · intro h
        rcases List.mem_cons.mp h with rfl | h
        · exact .here (List.mem_cons_self _ _)
        · rcases List.mem_append.mp h with h | h
          · by_cases he : e = true
            · rw [if_pos he] at h
              exact .deeper (List.mem_cons_self _ _) he (ih1.mp h)
            · rw [if_neg he] at h; cases h
          · exact visibleIn_cons (ih2.mp h)
      · intro h
        rcases visibleIn_cons_inv h with rfl | ⟨he, hv⟩ | hv
        · exact List.mem_cons_self _ _
        · refine List.mem_cons_of_mem _ (List.mem_append_left _ ?_)
          rw [if_pos he]
          exact ih1.mpr hv
        · exact List.mem_cons_of_mem _ (List.mem_append_right _ (ih2.mpr hv))

theorem visibleIn_mem_flattenTreeAll {x : ChatTreeNode} {l : List ChatTreeNode}
    (h : VisibleIn x l) : x ∈ flattenTreeAll l := by
  induction h with
  | here hm => exact mem_flattenTreeAll_of_mem hm
  | deeper hm _ _ ih => exact mem_flattenTreeAll_trans (mem_flattenTreeAll_of_mem hm) ih

theorem visible_ancestors_expanded {n : ChatTreeNode} :
    ∀ {l : List ChatTreeNode}, (flattenTreeAll l).Nodup → VisibleIn n l →
      ∀ a ∈ flattenTreeAll l, n ∈ flattenTreeAll a.children →
        a.is_expanded = true := by
  intro l
  induction l using flattenTreeAll.induct with
  | case1 =>
      intro _ _ a ha _
      rw [flattenTreeAll] at ha
      cases ha
  | case2 c ch d e s rest ih1 ih2 =>
      intro hnd hvis a ha hn
      rw [flattenTreeAll_cons] at hnd ha
      have hhead := (List.nodup_cons.mp hnd).1
      have htail := (List.nodup_cons.mp hnd).2
      have hndch : (flattenTreeAll ch).Nodup := ((List.nodup_append).mp htail).1
      have hndrest : (flattenTreeAll rest).Nodup := ((List.nodup_append).mp htail).2.1
      have hdisj : ∀ x ∈ flattenTreeAll ch, x ∉ flattenTreeAll rest :=
        fun x hx => ((List.nodup_append).mp htail).2.2 hx
      rcases visibleIn_cons_inv hvis with rfl | ⟨he, hv⟩ | hv
      · -- n is the head root
        rcases List.mem_cons.mp ha with rfl | ha
        · -- a is the head as well: the head would sit inside its own subtree
          exact absurd hn (fun hx =>
            hhead (List.mem_append_left _ hx))
        · rcases List.mem_append.mp ha with ha | ha
          · -- a inside the head's subtree: the head would reappear below itself
            exact absurd (mem_flattenTreeAll_trans ha hn)
              (fun hx => hhead (List.mem_append_left _ hx))
          · -- a inside a later tree: the head would reappear there
            exact absurd (mem_flattenTreeAll_trans ha hn)
              (fun hx => hhead (List.mem_append_right _ hx))
      · -- n is visible inside the head's children
        have hnch : n ∈ flattenTreeAll ch := visibleIn_mem_flattenTreeAll hv
        rcases List.mem_cons.mp ha with rfl | ha
        · exact he
        · rcases List.mem_append.mp ha with ha | ha
          · exact ih1 hndch hv a ha hn
          · exact absurd hnch (fun hx => hdisj n hx (mem_flattenTreeAll_trans ha hn))
      · -- n is visible in a later tree
        have hnrest : n ∈ flattenTreeAll rest := visibleIn_mem_flattenTreeAll hv
        rcases List.mem_cons.mp ha with rfl | ha
        · exact absurd hn (fun hx => hdisj n hx hnrest)
        · rcases List.mem_append.mp ha with ha | ha
          · exact absurd (mem_flattenTreeAll_trans ha hn)
              (fun hx => hdisj n hx hnrest)
          · exact ih2 hndrest hv a ha hn

theorem reExpand_cons (g : String → Bool) (c : ChatInfo) (ch : List ChatTreeNode)
    (d : Nat) (e s : Bool) (rest : List ChatTreeNode) :
    reExpand g (ChatTreeNode.mk c ch d e s :: rest) =
      ChatTreeNode.mk c (reExpand g ch) d (g c.file_id) s :: reExpand g rest := by
  rw [reExpand]

theorem getSelectedNodes_reExpand (g : String → Bool) :
    ∀ (l : List ChatTreeNode),
      (getSelectedNodes (reExpand g l)).map ChatTreeNode.chat =
        (getSelectedNodes l).map ChatTreeNode.chat := by
  intro l
  induction l using flattenTreeAll.induct with
  | case1 => rw [reExpand]
  | case2 c ch d e s rest ih1 ih2 =>
      rw [reExpand_cons, getSelectedNodes_cons, getSelectedNodes_cons]
      by_cases hs : s = true
      · simp only [if_pos hs, List.map_append, List.map_cons, ih1, ih2]
        rfl
      · simp only [if_neg hs, List.map_append, ih1, ih2]

/-- **C9.**  Selection independence: in any forest with duplicate-free node
ids, a selected node below a collapsed ancestor is collected by
`getSelectedNodes` but absent from `flattenTree`; a node is listed by
`flattenTree` precisely when it sits under a chain of expanded ancestors
(so it appears only once every one of its ancestors is expanded); and the
records collected by `getSelectedNodes` do not depend on any node's
expansion flag. -/
theorem selection_independence (nodes : List ChatTreeNode) (a n : ChatTreeNode)
    (hnd : ((flattenTreeAll nodes).map (fun t => t.chat.file_id)).Nodup)
    (ha : a ∈ flattenTreeAll nodes)
    (hn : n ∈ flattenTreeAll a.children)
    (hsel : n.is_selected = true)
    (hcol : a.is_expanded = false) :
    n ∈ getSelectedNodes nodes ∧
    n ∉ flattenTree nodes ∧
    (∀ m, m ∈ flattenTree nodes ↔ VisibleIn m nodes) ∧
    (∀ g, (getSelectedNodes (reExpand g nodes)).map ChatTreeNode.chat
        = (getSelectedNodes nodes).map ChatTreeNode.chat) := by
  have hvnd : (flattenTreeAll nodes).Nodup := hnd.of_map
  have hmemn : n ∈ flattenTreeAll nodes := mem_flattenTreeAll_trans ha hn
  refine ⟨mem_getSelectedNodes_iff.mpr ⟨hmemn, hsel⟩, ?_,
    fun m => mem_flattenTree_iff_visibleIn, fun g => getSelectedNodes_reExpand g nodes⟩
  intro hvis
  have hexp : a.is_expanded = true :=
    visible_ancestors_expanded hvnd (mem_flattenTree_iff_visibleIn.mp hvis) a ha hn
  rw [hcol] at hexp
  cases hexp

/-- **C9, witness.** -/
theorem selection_independence_w :
    (((flattenTreeAll [selParentNode]).map (fun t => t.chat.file_id)).Nodup ∧
      selParentNode ∈ flattenTreeAll [selParentNode] ∧
      selChildNode ∈ flattenTreeAll selParentNode.children ∧
      selChildNode.is_selected = true ∧
      selParentNode.is_expanded = false) ∧
    (selChildNode ∈ getSelectedNodes [selParentNode] ∧
      selChildNode ∉ flattenTree [selParentNode] ∧
      (∀ m, m ∈ flattenTree [selParentNode] ↔ VisibleIn m [selParentNode]) ∧
      (∀ g, (getSelectedNodes (reExpand g [selParentNode])).map ChatTreeNode.chat
          = (getSelectedNodes [selParentNode]).map ChatTreeNode.chat)) := by
  have h1 : ((flattenTreeAll [selParentNode]).map (fun t => t.chat.file_id)).Nodup := by
    simp [selParentNode, selChildNode, flattenTreeAll_cons, flattenTreeAll,
      ChatTreeNode.chat, sampleChat]
  have h2 : selParentNode ∈ flattenTreeAll [selParentNode] := by
    simp [selParentNode, selChildNode, flattenTreeAll_cons, flattenTreeAll]
  have h3 : selChildNode ∈ flattenTreeAll selParentNode.children := by
    simp [selParentNode, selChildNode, flattenTreeAll_cons, flattenTreeAll,
      ChatTreeNode.children]
  exact ⟨⟨h1, h2, h3, rfl, rfl⟩,
    selection_independence [selParentNode] selParentNode selChildNode h1 h2 h3 rfl rfl⟩

theorem sortJS_pair (cmp : α → α → Int) (a b : α) :
    sortJS cmp [a, b] = [a, b] ∨ sortJS cmp [a, b] = [b, a] := by
  by_cases h : cmp a b ≤ 0
  · left; simp [sortJS, insertCmp, h]
  · right; simp [sortJS, insertCmp, h]

theorem fillParents_of_truthy (l : List ChatInfo)
    (h : ∀ c ∈ l, isTruthy c.parent_chat = true) : fillParents l = l := by
  unfold fillParents
  have : ∀ c ∈ l,
      (if isTruthy c.parent_chat then c
       else match assocGet (detectBranchRelations l) c.file_id with
         | some p => { c with parent_chat := some p }
         | none => c) = id c := by
    intro c hc
    simp [h c hc]
  rw [List.map_congr_left this, List.map_id]

theorem buildArena_pair (a b : ChatInfo)
    (hab : a.file_id ≠ b.file_id) (hae : a.file_id ≠ "") (hbe : b.file_id ≠ "")
    (hpa : a.parent_chat = some b.file_id) (hpb : b.parent_chat = some a.file_id) :
    (buildArena [a, b]).roots = [] ∧
    childrenOf (buildArena [a, b]).map a.file_id = [b.file_id] ∧
    childrenOf (buildArena [a, b]).map b.file_id = [a.file_id] := by
  have hba : b.file_id ≠ a.file_id := fun h => hab h.symm
  simp [buildArena, initMap, attachStep, mapInsert, childrenOf,
    hpa, hpb, hab, hba, hae, hbe]

theorem buildChatForest_mutual_parents (a b : ChatInfo) (cfg : Option SortConfig)
    (hab : a.file_id ≠ b.file_id) (hae : a.file_id ≠ "") (hbe : b.file_id ≠ "")
    (hpa : a.parent_chat = some b.file_id) (hpb : b.parent_chat = some a.file_id) :
    (buildChatForest [a, b] cfg true).trees = [] ∧
    childrenOf (buildChatForest [a, b] cfg true).nodes a.file_id = [b.file_id] ∧
    childrenOf (buildChatForest [a, b] cfg true).nodes b.file_id = [a.file_id] ∧
    (buildChatForest [a, b] cfg true).total_count = 2 := by
  have hba : b.file_id ≠ a.file_id := fun h => hab h.symm
  have hproc : processedList [a, b] cfg true = [a, b] ∨
      processedList [a, b] cfg true = [b, a] := by
    unfold processedList sortChats
    rcases sortJS_pair (chatCmp (cfg.getD ⟨.updated_at, .desc⟩)) a b with h | h
    · left
      simp only [h, if_true]
      exact fillParents_of_truthy _ (by
        intro c hc
        rcases List.mem_cons.mp hc with rfl | hc
        · simp [isTruthy, hpa, hbe]
        · rcases List.mem_singleton.mp hc with rfl
          simp [isTruthy, hpb, hae])
    · right
      simp only [h, if_true]
      exact fillParents_of_truthy _ (by
        intro c hc
        rcases List.mem_cons.mp hc with rfl | hc
        · simp [isTruthy, hpb, hae]
        · rcases List.mem_singleton.mp hc with rfl
          simp [isTruthy, hpa, hbe])
  rcases hproc with hcase | hcase
  · obtain ⟨hr, hca, hcb⟩ := buildArena_pair a b hab hae hbe hpa hpb
    exact ⟨by simp [buildChatForest, hcase, hr, sortPass, sortJS],
      by simp [buildChatForest, hcase, hr, sortPass, hca],
      by simp [buildChatForest, hcase, hr, sortPass, hcb], rfl⟩
  · obtain ⟨hr, hcb, hca⟩ := buildArena_pair b a hba hbe hae hpb hpa
    exact ⟨by simp [buildChatForest, hcase, hr, sortPass, sortJS],
      by simp [buildChatForest, hcase, hr, sortPass, hca],
      by simp [buildChatForest, hcase, hr, sortPass, hcb], rfl⟩

/-- **C1, counterexample.**  For mutual-parent records A and B the built
forest contains no tree at all: neither A nor B is a root (the claim's
"exactly one of them is a root" fails), although the build terminates and
still counts both records. -/
theorem buildChatForest_cycle_no_root_cex :
    (buildChatForest [cycleRecA, cycleRecB] none true).trees = [] ∧
    (buildChatForest [cycleRecA, cycleRecB] none true).total_count = 2 := by
  decide

/-- **C1, amended, witness.** -/
theorem buildChatForest_mutual_parents_w :
    (cycleRecA.file_id ≠ cycleRecB.file_id ∧ cycleRecA.file_id ≠ "" ∧
      cycleRecB.file_id ≠ "" ∧ cycleRecA.parent_chat = some cycleRecB.file_id ∧
      cycleRecB.parent_chat = some cycleRecA.file_id) ∧
    ((buildChatForest [cycleRecA, cycleRecB] none true).trees = [] ∧
      childrenOf (buildChatForest [cycleRecA, cycleRecB] none true).nodes cycleRecA.file_id
        = [cycleRecB.file_id] ∧
      childrenOf (buildChatForest [cycleRecA, cycleRecB] none true).nodes cycleRecB.file_id
        = [cycleRecA.file_id] ∧
      (buildChatForest [cycleRecA, cycleRecB] none true).total_count = 2) :=
  ⟨⟨by decide, by decide, by decide, by decide, by decide⟩,
    buildChatForest_mutual_parents cycleRecA cycleRecB none
      (by decide) (by decide) (by decide) (by decide) (by decide)⟩

/-- **C2, counterexample.**  On the mutual-parent pair, the ids reachable
from the forest's roots are empty rather than the input id set, and the sum
of the trees' node counts is 0 while `total_count` (returned by
`countNodesInForest`) is 2. -/
theorem buildChatForest_cycle_partition_cex :
    ((buildChatForest [cycleRecA, cycleRecB] none true).trees.map ChatTree.nodeIds).flatten
      = [] ∧
    (((buildChatForest [cycleRecA, cycleRecB] none true).trees.map ChatTree.node_count).sum
      = 0) ∧
    countNodesInForest (buildChatForest [cycleRecA, cycleRecB] none true) = 2 ∧
    [cycleRecA, cycleRecB].map ChatInfo.file_id ≠ [] := by
  decide

/-- **C4, counterexample.**  With the chain g ← p ← c sorted newest-first,
`c` is processed before its parent `p` and reads `p`'s depth before `p` is
attached below `g`: both end at depth 1, so the attached node `c` violates
`depth = parent.depth + 1` (while every root still has depth 0). -/
theorem buildChatForest_depth_stale_cex :
    childrenOf (buildChatForest [chainG, chainP, chainC] none true).nodes "p" = ["c"] ∧
    ((buildChatForest [chainG, chainP, chainC] none true).nodes "c").map ArenaNode.depth
      = some 1 ∧
    ((buildChatForest [chainG, chainP, chainC] none true).nodes "p").map ArenaNode.depth
      = some 1 ∧
    ((buildChatForest [chainG, chainP, chainC] none true).nodes "g").map ArenaNode.depth
      = some 0 := by
  decide

theorem mapInsert_apply (m : NodeMap) (k : String) (v : ArenaNode) (x : String) :
    mapInsert m k v x = if x = k then some v else m x := rfl

theorem attachStep_isSome (st : BuildSt) (c : ChatInfo) (x : String) :
    ((attachStep st c).map x).isSome = (st.map x).isSome := by
  unfold attachStep
  cases hn : st.map c.file_id with
  | none => rfl
  | some node =>
      cases hp : c.parent_chat with
      | none => rfl
      | some p =>
          by_cases hne : p ≠ ""
          · simp only [if_pos hne]
            cases hpn : st.map p with
            | none => rfl
            | some pn =>
                simp only [mapInsert_apply]
                by_cases hpc : p = c.file_id <;> by_cases hxp : x = p <;>
                  by_cases hxc : x = c.file_id
                all_goals simp_all [mapInsert_apply]
          · simp only [if_neg hne]

theorem foldl_attach_isSome (todo : List ChatInfo) :
    ∀ (st : BuildSt) (x : String),
      ((todo.foldl attachStep st).map x).isSome = (st.map x).isSome := by
  induction todo with
  | nil => intro st x; rfl
  | cons c cs ih =>
      intro st x
      rw [List.foldl_cons, ih, attachStep_isSome]

theorem initMap_isSome (l : List ChatInfo) (x : String) :
    ((initMap l) x).isSome = true ↔ x ∈ idsOf l := by
  unfold initMap idsOf
  suffices hgen : ∀ (l' : List ChatInfo) (m0 : NodeMap),
      ((l'.foldl (fun m c => mapInsert m c.file_id
        { chat := c, children := [], depth := 0, is_expanded := true, is_selected := false })
        m0) x).isSome = true ↔ x ∈ l'.map ChatInfo.file_id ∨ (m0 x).isSome = true by
    rw [hgen l (fun _ => none)]
    simp
  intro l'
  induction l' with
  | nil => intro m0; simp
  | cons c cs ih =>
      intro m0
      rw [List.foldl_cons, ih]
      by_cases hx : x = c.file_id
      · simp [mapInsert_apply, hx]
      · simp [mapInsert_apply, hx]

theorem buildArena_isSome (l : List ChatInfo) (x : String) :
    (((buildArena l).map x).isSome = true) ↔ x ∈ idsOf l := by
  unfold buildArena
  rw [foldl_attach_isSome]
  exact initMap_isSome l x

theorem childrenOf_mapInsert (m : NodeMap) (k : String) (v : ArenaNode) (x : String) :
    childrenOf (mapInsert m k v) x = if x = k then v.children else childrenOf m x := by
  by_cases h : x = k <;> simp [childrenOf, mapInsert_apply, h]

theorem depthOf_mapInsert (m : NodeMap) (k : String) (v : ArenaNode) (x : String) :
    depthOf (mapInsert m k v) x = if x = k then some v.depth else depthOf m x := by
  by_cases h : x = k <;> simp [depthOf, mapInsert_apply, h]

theorem attachStep_attach_eq (st : BuildSt) (c : ChatInfo) (p : String)
    (node pn : ArenaNode)
    (hn : st.map c.file_id = some node) (hp : c.parent_chat = some p)
    (hne : p ≠ "") (hpn : st.map p = some pn) :
    attachStep st c =
      ⟨mapInsert (mapInsert st.map c.file_id { node with depth := pn.depth + 1 }) p
        { (if p = c.file_id then { node with depth := pn.depth + 1 } else pn) with
          children :=
            (if p = c.file_id then { node with depth := pn.depth + 1 } else pn).children
              ++ [c.file_id] },
       st.roots⟩ := by
  have hm1p : (mapInsert st.map c.file_id { node with depth := pn.depth + 1 }) p
      = some (if p = c.file_id then { node with depth := pn.depth + 1 } else pn) := by
    by_cases hpc : p = c.file_id
    · simp [mapInsert_apply, hpc]
    · simp [mapInsert_apply, hpc, hpn]
  unfold attachStep
  simp only [hn, hp, if_pos hne, hpn, hm1p]

theorem attachStep_attach (st : BuildSt) (c : ChatInfo) (p : String)
    (node pn : ArenaNode)
    (hn : st.map c.file_id = some node) (hp : c.parent_chat = some p)
    (hne : p ≠ "") (hpn : st.map p = some pn) :
    (attachStep st c).roots = st.roots ∧
    childrenOf (attachStep st c).map p = childrenOf st.map p ++ [c.file_id] ∧
    (∀ x, x ≠ p → childrenOf (attachStep st c).map x = childrenOf st.map x) ∧
    depthOf (attachStep st c).map c.file_id = some (pn.depth + 1) ∧
    (∀ x, x ≠ c.file_id → depthOf (attachStep st c).map x = depthOf st.map x) := by
  rw [attachStep_attach_eq st c p node pn hn hp hne hpn]
  refine ⟨rfl, ?_, ?_, ?_, ?_⟩
  · by_cases hpc : p = c.file_id <;>
      simp_all [childrenOf_mapInsert, childrenOf, mapInsert_apply]
  · intro x hx
    by_cases hxc : x = c.file_id <;>
      simp_all [childrenOf_mapInsert, childrenOf, mapInsert_apply]
  · by_cases hpc : p = c.file_id
    · simp_all [depthOf_mapInsert, depthOf, mapInsert_apply]
    · have hcp : ¬ (c.file_id = p) := fun h => hpc h.symm
      simp_all [depthOf_mapInsert, depthOf, mapInsert_apply]
  · intro x hx
    by_cases hxp : x = p <;> by_cases hpc : p = c.file_id <;>
      simp_all [depthOf_mapInsert, depthOf, mapInsert_apply]

theorem attachStep_root (st : BuildSt) (c : ChatInfo) (node : ArenaNode)
    (hn : st.map c.file_id = some node)
    (hp : ∀ p, c.parent_chat = some p → p ≠ "" → st.map p = none) :
    attachStep st c = ⟨st.map, st.roots ++ [c.file_id]⟩ := by
  unfold attachStep
  rw [hn]
  cases hpc : c.parent_chat with
  | none => rfl
  | some p =>
      by_cases hne : p ≠ ""
      · simp only [if_pos hne, hp p hpc hne]
      · simp only [if_neg hne]

theorem effParent_some_facts {ids : List String} {c : ChatInfo} {p : String}
    (h : effParent ids c = some p) :
    c.parent_chat = some p ∧ p ≠ "" ∧ p ∈ ids := by
  unfold effParent at h
  cases hp : c.parent_chat with
  | none => rw [hp] at h; cases h
  | some q =>
      rw [hp] at h
      by_cases hq : q ≠ "" ∧ q ∈ ids
      · simp only [if_pos hq] at h
        have hqp : q = p := Option.some_injective _ h
        subst hqp
        exact ⟨rfl, hq.1, hq.2⟩
      · simp only [if_neg hq] at h; cases h

theorem effParent_none_facts {ids : List String} {c : ChatInfo}
    (h : effParent ids c = none) :
    ∀ p, c.parent_chat = some p → p ≠ "" → p ∉ ids := by
  intro p hp hne hmem
  unfold effParent at h
  rw [hp] at h
  simp only [if_pos (And.intro hne hmem)] at h
  exact Option.noConfusion h

theorem attachStep_effParent_none {l : List ChatInfo} (st : BuildSt) (c : ChatInfo)
    (hkeys : ∀ x, ((st.map x).isSome = true) ↔ x ∈ idsOf l)
    (hc : c.file_id ∈ idsOf l)
    (heff : effParent (idsOf l) c = none) :
    attachStep st c = ⟨st.map, st.roots ++ [c.file_id]⟩ := by
  obtain ⟨node, hn⟩ : ∃ node, st.map c.file_id = some node := by
    have := (hkeys c.file_id).mpr hc
    cases h : st.map c.file_id
    · rw [h] at this; cases this
    · exact ⟨_, rfl⟩
  refine attachStep_root st c node hn ?_
  intro p hp hne
  have hnm := effParent_none_facts heff p hp hne
  cases h : st.map p with
  | none => rfl
  | some pn =>
      exact absurd ((hkeys p).mp (by rw [h]; rfl)) hnm

theorem attachStep_depthOf_ne (st : BuildSt) (c : ChatInfo) (x : String)
    (hx : x ≠ c.file_id) :
    depthOf (attachStep st c).map x = depthOf st.map x := by
  unfold attachStep
  cases hn : st.map c.file_id with
  | none => rfl
  | some node =>
      cases hp : c.parent_chat with
      | none => rfl
      | some p =>
          by_cases hne : p ≠ ""
          · simp only [if_pos hne]
            cases hpn : st.map p with
            | none => rfl
            | some pn =>
                simp only [mapInsert_apply]
                by_cases hpc : p = c.file_id <;> by_cases hxp : x = p
                all_goals simp_all [depthOf, mapInsert_apply]
          · simp only [if_neg hne]

theorem foldl_attach_depthOf (todo : List ChatInfo) :
    ∀ (st : BuildSt) (x : String), (∀ c ∈ todo, c.file_id ≠ x) →
      depthOf (todo.foldl attachStep st).map x = depthOf st.map x := by
  induction todo with
  | nil => intro st x _; rfl
  | cons c cs ih =>
      intro st x hx
      rw [List.foldl_cons, ih _ _ (fun d hd => hx d (List.mem_cons_of_mem c hd))]
      exact attachStep_depthOf_ne st c x (fun h => hx c (List.mem_cons_self c cs) h.symm)

theorem keys_some {l : List ChatInfo} {m : NodeMap}
    (hkeys : ∀ x, ((m x).isSome = true) ↔ x ∈ idsOf l) {x : String}
    (hx : x ∈ idsOf l) : ∃ nd, m x = some nd := by
  have := (hkeys x).mpr hx
  cases h : m x
  · rw [h] at this; cases this
  · exact ⟨_, rfl⟩

theorem attachStep_effParent_attach {l : List ChatInfo} (st : BuildSt) (c : ChatInfo)
    (p : String)
    (hkeys : ∀ x, ((st.map x).isSome = true) ↔ x ∈ idsOf l)
    (hc : c.file_id ∈ idsOf l)
    (heff : effParent (idsOf l) c = some p) :
    ∃ pn, st.map p = some pn ∧
      (attachStep st c).roots = st.roots ∧
      childrenOf (attachStep st c).map p = childrenOf st.map p ++ [c.file_id] ∧
      (∀ x, x ≠ p → childrenOf (attachStep st c).map x = childrenOf st.map x) ∧
      depthOf (attachStep st c).map c.file_id = some (pn.depth + 1) ∧
      (∀ x, x ≠ c.file_id → depthOf (attachStep st c).map x = depthOf st.map x) := by
  obtain ⟨hp, hne, hmem⟩ := effParent_some_facts heff
  obtain ⟨node, hn⟩ := keys_some hkeys hc
  obtain ⟨pn, hpn⟩ := keys_some hkeys hmem
  exact ⟨pn, hpn, attachStep_attach st c p node pn hn hp hne hpn⟩

theorem initMap_depthOf (l : List ChatInfo) (x : String) (hx : x ∈ idsOf l) :
    depthOf (initMap l) x = some 0 := by
  unfold initMap idsOf at *
  induction l using List.reverseRecOn with
  | nil => cases hx
  | append_singleton cs c ih =>
      rw [List.foldl_append, List.foldl_cons, List.foldl_nil]
      by_cases hxc : x = c.file_id
      · simp [depthOf_mapInsert, hxc]
      · rw [depthOf_mapInsert, if_neg hxc]
        refine ih ?_
        rcases List.mem_map.mp hx with ⟨d, hd, hdx⟩
        rcases List.mem_append.mp hd with hd | hd
        · exact List.mem_map.mpr ⟨d, hd, hdx⟩
        · rcases List.mem_singleton.mp hd with rfl
          exact absurd hdx.symm hxc

theorem buildArena_roots_depth_aux (l : List ChatInfo) :
    ∀ (todo : List ChatInfo) (st : BuildSt),
      (∀ x, ((st.map x).isSome = true) ↔ x ∈ idsOf l) →
      (idsOf todo).Nodup →
      (∀ c ∈ todo, c.file_id ∈ idsOf l) →
      (∀ r ∈ st.roots, depthOf st.map r = some 0) →
      (∀ x ∈ idsOf todo, depthOf st.map x = some 0) →
      (∀ r ∈ st.roots, r ∉ idsOf todo) →
      ∀ r ∈ (todo.foldl attachStep st).roots,
        depthOf (todo.foldl attachStep st).map r = some 0 := by
  intro todo
  induction todo with
  | nil => intro st _ _ _ hr _ _ r hrr; exact hr r hrr
  | cons c cs ih =>
      intro st hkeys hnd hsub hr ht hrt r hrr
      rw [List.foldl_cons] at hrr ⊢
      have hkeys' : ∀ x, (((attachStep st c).map x).isSome = true) ↔ x ∈ idsOf l := by
        intro x; rw [attachStep_isSome]; exact hkeys x
      have hndcs : (idsOf cs).Nodup := by
        have : (idsOf (c :: cs)).Nodup = (c.file_id :: idsOf cs).Nodup := rfl
        rw [this] at hnd
        exact (List.nodup_cons.mp hnd).2
      have hcnotcs : c.file_id ∉ idsOf cs := by
        have : (idsOf (c :: cs)).Nodup = (c.file_id :: idsOf cs).Nodup := rfl
        rw [this] at hnd
        exact (List.nodup_cons.mp hnd).1
      have hsub' : ∀ d ∈ cs, d.file_id ∈ idsOf l := fun d hd =>
        hsub d (List.mem_cons_of_mem c hd)
      have hcid : c.file_id ∈ idsOf l := hsub c (List.mem_cons_self c cs)
      cases heff : effParent (idsOf l) c with
      | none =>
          have heq := attachStep_effParent_none st c hkeys hcid heff
          rw [heq] at hrr hkeys' ⊢
          refine ih _ hkeys' hndcs hsub' ?_ ?_ ?_ r hrr
          · intro r' hr'
            rcases List.mem_append.mp hr' with hr' | hr'
            · exact hr r' hr'
            · rcases List.mem_singleton.mp hr' with rfl
              exact ht c.file_id (List.mem_cons_self _ _)
          · intro x hx
            exact ht x (List.mem_cons_of_mem _ hx)
          · intro r' hr'
            rcases List.mem_append.mp hr' with hr' | hr'
            · exact fun hmem => hrt r' hr' (List.mem_cons_of_mem _ hmem)
            · rcases List.mem_singleton.mp hr' with rfl
              exact hcnotcs
      | some p =>
          obtain ⟨pn, hpn, hroots, hchp, hchx, hdc, hdx⟩ :=
            attachStep_effParent_attach st c p hkeys hcid heff
          refine ih _ hkeys' hndcs hsub' ?_ ?_ ?_ r hrr
          · intro r' hr'
            rw [hroots] at hr'
            rw [hdx r' (fun h => hrt r' hr' (h ▸ List.mem_cons_self _ _))]
            exact hr r' hr'
          · intro x hx
            rw [hdx x (fun h => hcnotcs (h ▸ hx))]
            exact ht x (List.mem_cons_of_mem _ hx)
          · intro r' hr' hmem
            rw [hroots] at hr'
            exact hrt r' hr' (List.mem_cons_of_mem _ hmem)

theorem buildArena_roots_depth (l : List ChatInfo) (hnd : (idsOf l).Nodup) :
    ∀ r ∈ (buildArena l).roots, depthOf (buildArena l).map r = some 0 := by
  unfold buildArena
  refine buildArena_roots_depth_aux l l ⟨initMap l, []⟩ (initMap_isSome l) hnd
    (fun c hc => List.mem_map.mpr ⟨c, hc, rfl⟩) ?_ ?_ ?_
  · intro r hr; cases hr
  · intro x hx; exact initMap_depthOf l x hx
  · intro r hr; cases hr

theorem buildArena_attached_depth (l : List ChatInfo) (hnd : (idsOf l).Nodup)
    (l1 : List ChatInfo) (c : ChatInfo) (l2 : List ChatInfo)
    (hsplit : l = l1 ++ c :: l2) (p : String)
    (heff : effParent (idsOf l) c = some p)
    (hp1 : p ∈ idsOf l1) :
    ∃ dp, depthOf (buildArena l).map p = some dp ∧
      depthOf (buildArena l).map c.file_id = some (dp + 1) := by
  have hids : idsOf l = idsOf l1 ++ c.file_id :: idsOf l2 := by
    rw [hsplit]; simp [idsOf]
  have hnd2 : (idsOf l1 ++ c.file_id :: idsOf l2).Nodup := hids ▸ hnd
  have hdisj : ∀ x ∈ idsOf l1, x ∉ c.file_id :: idsOf l2 :=
    fun x hx => (List.nodup_append.mp hnd2).2.2 hx
  have hpc : p ≠ c.file_id := by
    intro h
    exact hdisj p hp1 (h ▸ List.mem_cons_self _ _)
  have hpl2 : p ∉ idsOf l2 :=
    fun h => hdisj p hp1 (List.mem_cons_of_mem _ h)
  have hcl2 : c.file_id ∉ idsOf l2 := by
    have := (List.nodup_append.mp hnd2).2.1
    exact (List.nodup_cons.mp this).1
  have hfold : buildArena l = l2.foldl attachStep
      (attachStep (l1.foldl attachStep ⟨initMap l, []⟩) c) := by
    unfold buildArena
    rw [hsplit]
    rw [List.foldl_append, List.foldl_cons]
  have hkeysA : ∀ x, (((l1.foldl attachStep ⟨initMap l, []⟩).map x).isSome = true)
      ↔ x ∈ idsOf l := by
    intro x
    rw [foldl_attach_isSome]
    exact initMap_isSome l x
  have hcid : c.file_id ∈ idsOf l := by
    rw [hids]
    exact List.mem_append_right _ (List.mem_cons_self _ _)
  obtain ⟨pn, hpn, hroots, hchp, hchx, hdc, hdx⟩ :=
    attachStep_effParent_attach (l1.foldl attachStep ⟨initMap l, []⟩) c p hkeysA hcid heff
  refine ⟨pn.depth, ?_, ?_⟩
  · rw [hfold]
    rw [foldl_attach_depthOf l2 _ p (fun d hd h => hpl2 (h ▸ List.mem_map.mpr ⟨d, hd, rfl⟩))]
    rw [hdx p hpc]
    simp [depthOf, hpn]
  · rw [hfold]
    rw [foldl_attach_depthOf l2 _ c.file_id
      (fun d hd h => hcl2 (h ▸ List.mem_map.mpr ⟨d, hd, rfl⟩))]
    exact hdc

theorem arenaSim_refl (m : NodeMap) : ArenaSim m m :=
  fun _ => ⟨rfl, rfl, rfl, rfl, List.Perm.refl _⟩

theorem arenaSim_trans {m1 m2 m3 : NodeMap}
    (h12 : ArenaSim m1 m2) (h23 : ArenaSim m2 m3) : ArenaSim m1 m3 := by
  intro k
  obtain ⟨a1, a2, a3, a4, a5⟩ := h12 k
  obtain ⟨b1, b2, b3, b4, b5⟩ := h23 k
  exact ⟨b1.trans a1, b2.trans a2, b3.trans a3, b4.trans a4, b5.trans a5⟩

theorem foldl_sim {f : NodeMap → String → NodeMap}
    (hf : ∀ m y, ArenaSim m (f m y)) :
    ∀ (l : List String) (m : NodeMap), ArenaSim m (l.foldl f m) := by
  intro l
  induction l with
  | nil => intro m; exact arenaSim_refl m
  | cons y ys ih =>
      intro m
      rw [List.foldl_cons]
      exact arenaSim_trans (hf m y) (ih (f m y))

theorem sortChildrenDesc_sim (fuel : Nat) :
    ∀ (m : NodeMap) (x : String), ArenaSim m (sortChildrenDesc fuel m x) := by
  induction fuel with
  | zero => intro m x; exact arenaSim_refl m
  | succ fuel ih =>
      intro m x
      rw [sortChildrenDesc]
      cases hx : m x with
      | none => exact arenaSim_refl m
      | some nd =>
          by_cases hlen : nd.children.length > 0
          · simp only [if_pos hlen]
            refine arenaSim_trans ?_ (foldl_sim (fun m' y => ih m' y) _ _)
            intro k
            by_cases hk : k = x
            · subst hk
              refine ⟨?_, ?_, ?_, ?_, ?_⟩ <;>
                simp [mapInsert_apply, hx, childrenOf, sortJS_perm]
            · refine ⟨?_, ?_, ?_, ?_, ?_⟩ <;>
                simp [mapInsert_apply, hk, childrenOf]
          · simp only [if_neg hlen]
            exact arenaSim_refl m

theorem sortPass_sim (fuel : Nat) (m : NodeMap) (roots : List String) :
    ArenaSim m (sortPass fuel m roots) :=
  foldl_sim (fun m' y => sortChildrenDesc_sim fuel m' y) roots m

theorem arenaSim_depthOf {m m' : NodeMap} (h : ArenaSim m m') (x : String) :
    depthOf m' x = depthOf m x := (h x).2.1

theorem arenaSim_isSome {m m' : NodeMap} (h : ArenaSim m m') (x : String) :
    (m' x).isSome = (m x).isSome := by
  have := (h x).1
  cases h1 : m x <;> cases h2 : m' x <;> rw [h1, h2] at this <;> simp_all

theorem fillParents_ids (l : List ChatInfo) : idsOf (fillParents l) = idsOf l := by
  unfold fillParents idsOf
  rw [List.map_map]
  refine List.map_congr_left ?_
  intro c hc
  by_cases h : isTruthy c.parent_chat
  · simp [h]
  · simp only [h, if_false, Function.comp]
    cases assocGet (detectBranchRelations l) c.file_id <;> rfl

theorem processedList_ids_perm (chats : List ChatInfo) (cfg : Option SortConfig)
    (detect : Bool) :
    (idsOf (processedList chats cfg detect)).Perm (idsOf chats) := by
  unfold processedList
  cases detect with
  | true =>
      rw [if_pos rfl, fillParents_ids]
      exact (sortChats_perm _ _).map _
  | false =>
      simp only [Bool.false_eq_true, if_false]
      exact (sortChats_perm _ _).map _

theorem buildChatForest_nodes_eq (chats : List ChatInfo) (cfg : Option SortConfig)
    (detect : Bool) :
    (buildChatForest chats cfg detect).nodes =
      sortPass (chats.length + 1) (buildArena (processedList chats cfg detect)).map
        (buildArena (processedList chats cfg detect)).roots := rfl

theorem buildChatForest_root_mem (chats : List ChatInfo) (cfg : Option SortConfig)
    (detect : Bool) (t : ChatTree)
    (ht : t ∈ (buildChatForest chats cfg detect).trees) :
    t.root ∈ (buildArena (processedList chats cfg detect)).roots := by
  unfold buildChatForest at ht
  simp only at ht
  have := ((sortJS_perm treeCmp _).mem_iff).mp ht
  rcases List.mem_map.mp this with ⟨r, hr, hteq⟩
  rw [← hteq]
  exact hr

/-- **C4, amended.**  Depth invariant: in every built forest, every tree
root has depth 0 (this part needs only duplicate-free ids); and provided
every record's resolved parent occurs earlier in the processed (sorted,
parent-filled) list than the record itself, every attached node's depth is
its parent's depth plus one.  Without that precedence the attached node
keeps the depth its parent had at attachment time, which can be stale (see
the counterexample). -/
theorem buildChatForest_depth_invariant (chats : List ChatInfo)
    (cfg : Option SortConfig) (detect : Bool)
    (hnd : (chats.map ChatInfo.file_id).Nodup) :
    (∀ t ∈ (buildChatForest chats cfg detect).trees,
        depthOf (buildChatForest chats cfg detect).nodes t.root = some 0) ∧
    ((∀ i : Fin (processedList chats cfg detect).length,
        ∀ p ∈ idsOf (processedList chats cfg detect),
          effParent (idsOf (processedList chats cfg detect))
              ((processedList chats cfg detect).get i) = some p →
          p ∈ idsOf ((processedList chats cfg detect).take i)) →
      ∀ c ∈ processedList chats cfg detect,
        ∀ p ∈ idsOf (processedList chats cfg detect),
          effParent (idsOf (processedList chats cfg detect)) c = some p →
          ∃ dp, depthOf (buildChatForest chats cfg detect).nodes p = some dp ∧
            depthOf (buildChatForest chats cfg detect).nodes c.file_id = some (dp + 1)) := by
  have hndP : (idsOf (processedList chats cfg detect)).Nodup :=
    ((processedList_ids_perm chats cfg detect).nodup_iff).mpr hnd
  have hsim : ∀ x, depthOf (buildChatForest chats cfg detect).nodes x =
      depthOf (buildArena (processedList chats cfg detect)).map x := by
    intro x
    rw [buildChatForest_nodes_eq]
    exact arenaSim_depthOf (sortPass_sim _ _ _) x
  constructor
  · intro t ht
    rw [hsim]
    exact buildArena_roots_depth _ hndP t.root
      (buildChatForest_root_mem chats cfg detect t ht)
  · intro hprec c hc p hpmem heff
    obtain ⟨i, hi⟩ := List.mem_iff_get.mp hc
    have hsplit : processedList chats cfg detect =
        (processedList chats cfg detect).take i ++
          c :: (processedList chats cfg detect).drop (i + 1) := by
      conv_lhs => rw [← List.take_append_drop i.1 (processedList chats cfg detect)]
      congr 1
      rw [List.drop_eq_getElem_cons i.isLt, ← List.get_eq_getElem, hi]
    have hp1 : p ∈ idsOf ((processedList chats cfg detect).take i) :=
      hprec i p hpmem (by rw [hi]; exact heff)
    obtain ⟨dp, hdp, hdc⟩ := buildArena_attached_depth _ hndP _ c _ hsplit p heff hp1
    exact ⟨dp, by rw [hsim]; exact hdp, by rw [hsim]; exact hdc⟩

/-- **C4, amended, witness.** -/
theorem buildChatForest_depth_invariant_w :
    ([orderedG, orderedP, orderedC].map ChatInfo.file_id).Nodup ∧
    ((∀ t ∈ (buildChatForest [orderedG, orderedP, orderedC] none true).trees,
        depthOf (buildChatForest [orderedG, orderedP, orderedC] none true).nodes t.root
          = some 0) ∧
      ((∀ i : Fin (processedList [orderedG, orderedP, orderedC] none true).length,
        ∀ p ∈ idsOf (processedList [orderedG, orderedP, orderedC] none true),
          effParent (idsOf (processedList [orderedG, orderedP, orderedC] none true))
              ((processedList [orderedG, orderedP, orderedC] none true).get i) = some p →
          p ∈ idsOf ((processedList [orderedG, orderedP, orderedC] none true).take i)) →
        ∀ c ∈ processedList [orderedG, orderedP, orderedC] none true,
          ∀ p ∈ idsOf (processedList [orderedG, orderedP, orderedC] none true),
            effParent (idsOf (processedList [orderedG, orderedP, orderedC] none true)) c
                = some p →
            ∃ dp,
              depthOf (buildChatForest [orderedG, orderedP, orderedC] none true).nodes p
                = some dp ∧
              depthOf
                  (buildChatForest [orderedG, orderedP, orderedC] none true).nodes c.file_id
                = some (dp + 1))) :=
  ⟨by decide,
    buildChatForest_depth_invariant [orderedG, orderedP, orderedC] none true (by decide)⟩

theorem chSumM_nil (m : NodeMap) : chSumM m [] = 0 := rfl

theorem chSumM_cons (m : NodeMap) (x : String) (ids : List String) :
    chSumM m (x :: ids) = (childrenOf m x : Multiset String) + chSumM m ids := by
  unfold chSumM
  rw [List.map_cons, List.sum_cons]

theorem chSumM_congr {m m' : NodeMap} (ids : List String)
    (h : ∀ x ∈ ids, childrenOf m' x = childrenOf m x) :
    chSumM m' ids = chSumM m ids := by
  unfold chSumM
  congr 1
  refine List.map_congr_left ?_
  intro x hx
  rw [h x hx]

theorem chSumM_update {m m' : NodeMap} {p y : String} (ids : List String)
    (hnd : ids.Nodup) (hp : p ∈ ids)
    (hothers : ∀ x, x ≠ p → childrenOf m' x = childrenOf m x)
    (hat : childrenOf m' p = childrenOf m p ++ [y]) :
    chSumM m' ids = chSumM m ids + {y} := by
  induction ids with
  | nil => cases hp
  | cons a as ih =>
      rw [chSumM_cons, chSumM_cons]
      rcases List.mem_cons.mp hp with rfl | hp2
      · have hnot : p ∉ as := (List.nodup_cons.mp hnd).1
        rw [hat, chSumM_congr as (fun x hx => hothers x (fun h => hnot (h ▸ hx)))]
        have hcoe : ((childrenOf m p ++ [y] : List String) : Multiset String)
            = (childrenOf m p : Multiset String) + ([y] : List String) := rfl
        rw [hcoe]
        have hy : (([y] : List String) : Multiset String) = ({y} : Multiset String) := rfl
        rw [hy]
        rw [add_right_comm]
      · have hap : a ≠ p := by
          intro h
          exact (List.nodup_cons.mp hnd).1 (h ▸ hp2)
        rw [hothers a hap, ih (List.nodup_cons.mp hnd).2 hp2]
        rw [add_assoc]

theorem initMap_childrenOf (l : List ChatInfo) (x : String) :
    childrenOf (initMap l) x = [] := by
  unfold initMap
  suffices hgen : ∀ (l' : List ChatInfo) (m0 : NodeMap), (∀ z, childrenOf m0 z = []) →
      childrenOf (l'.foldl (fun m c => mapInsert m c.file_id
        { chat := c, children := [], depth := 0, is_expanded := true, is_selected := false })
        m0) x = [] by
    exact hgen l _ (fun z => rfl)
  intro l'
  induction l' with
  | nil => intro m0 h0; exact h0 x
  | cons c cs ih =>
      intro m0 h0
      rw [List.foldl_cons]
      refine ih _ ?_
      intro z
      rw [childrenOf_mapInsert]
      by_cases hz : z = c.file_id
      · rw [if_pos hz]
      · rw [if_neg hz]; exact h0 z

theorem attachStep_measure {l : List ChatInfo} (st : BuildSt) (c : ChatInfo)
    (hkeys : ∀ x, ((st.map x).isSome = true) ↔ x ∈ idsOf l)
    (hc : c.file_id ∈ idsOf l) (hnd : (idsOf l).Nodup) :
    ((attachStep st c).roots : Multiset String) + chSumM (attachStep st c).map (idsOf l)
      = (((st.roots : Multiset String) + chSumM st.map (idsOf l)) + {c.file_id}) := by
  cases heff : effParent (idsOf l) c with
  | none =>
      rw [attachStep_effParent_none st c hkeys hc heff]
      have hcoe : ((st.roots ++ [c.file_id] : List String) : Multiset String)
          = (st.roots : Multiset String) + ({c.file_id} : Multiset String) := rfl
      rw [hcoe, add_right_comm]
  | some p =>
      obtain ⟨pn, hpn, hroots, hchp, hchx, hdc, hdx⟩ :=
        attachStep_effParent_attach st c p hkeys hc heff
      obtain ⟨-, -, hpmem⟩ := effParent_some_facts heff
      rw [hroots]
      rw [chSumM_update (idsOf l) hnd hpmem (fun x hx => hchx x hx) hchp]
      rw [add_assoc]

theorem buildArena_measure_aux (l : List ChatInfo) (hnd : (idsOf l).Nodup) :
    ∀ (todo : List ChatInfo) (st : BuildSt),
      (∀ x, ((st.map x).isSome = true) ↔ x ∈ idsOf l) →
      (∀ c ∈ todo, c.file_id ∈ idsOf l) →
      ((todo.foldl attachStep st).roots : Multiset String)
          + chSumM (todo.foldl attachStep st).map (idsOf l)
        = ((st.roots : Multiset String) + chSumM st.map (idsOf l))
            + (idsOf todo : Multiset String) := by
  intro todo
  induction todo with
  | nil =>
      intro st _ _
      simp [idsOf]
  | cons c cs ih =>
      intro st hkeys hsub
      rw [List.foldl_cons]
      rw [ih (attachStep st c)
        (fun x => by rw [attachStep_isSome]; exact hkeys x)
        (fun d hd => hsub d (List.mem_cons_of_mem c hd))]
      rw [attachStep_measure st c hkeys (hsub c (List.mem_cons_self c cs)) hnd]
      have hcoe : (idsOf (c :: cs) : Multiset String)
          = ({c.file_id} : Multiset String) + (idsOf cs : Multiset String) := rfl
      rw [hcoe]
      rw [add_assoc]

theorem buildArena_measure (l : List ChatInfo) (hnd : (idsOf l).Nodup) :
    ((buildArena l).roots : Multiset String) + chSumM (buildArena l).map (idsOf l)
      = (idsOf l : Multiset String) := by
  unfold buildArena
  rw [buildArena_measure_aux l hnd l ⟨initMap l, []⟩ (initMap_isSome l)
    (fun c hc => List.mem_map.mpr ⟨c, hc, rfl⟩)]
  have hch : chSumM (initMap l) (idsOf l) = 0 := by
    unfold chSumM
    have : (idsOf l).map (fun x => ((childrenOf (initMap l) x : List String) : Multiset String))
        = (idsOf l).map (fun _ => (0 : Multiset String)) := by
      refine List.map_congr_left ?_
      intro x _
      rw [initMap_childrenOf]
      rfl
    rw [this]
    simp
  rw [hch]
  simp

theorem buildArena_children_sound (l : List ChatInfo) :
    ∀ p y, y ∈ childrenOf (buildArena l).map p →
      ∃ c ∈ l, c.file_id = y ∧ effParent (idsOf l) c = some p := by
  unfold buildArena
  suffices hgen : ∀ (todo : List ChatInfo) (st : BuildSt),
      (∀ x, ((st.map x).isSome = true) ↔ x ∈ idsOf l) →
      (∀ c ∈ todo, c ∈ l) →
      (∀ p y, y ∈ childrenOf st.map p →
        ∃ c ∈ l, c.file_id = y ∧ effParent (idsOf l) c = some p) →
      ∀ p y, y ∈ childrenOf (todo.foldl attachStep st).map p →
        ∃ c ∈ l, c.file_id = y ∧ effParent (idsOf l) c = some p by
    refine hgen l ⟨initMap l, []⟩ (initMap_isSome l) (fun c hc => hc) ?_
    intro p y hy
    rw [initMap_childrenOf] at hy
    cases hy
  intro todo
  induction todo with
  | nil => intro st _ _ hst p y hy; exact hst p y hy
  | cons c cs ih =>
      intro st hkeys hsub hst p y hy
      rw [List.foldl_cons] at hy
      refine ih (attachStep st c)
        (fun x => by rw [attachStep_isSome]; exact hkeys x)
        (fun d hd => hsub d (List.mem_cons_of_mem c hd)) ?_ p y hy
      intro p' y' hy'
      have hcl : c ∈ l := hsub c (List.mem_cons_self c cs)
      have hcid : c.file_id ∈ idsOf l := List.mem_map.mpr ⟨c, hcl, rfl⟩
      cases heff : effParent (idsOf l) c with
      | none =>
          rw [attachStep_effParent_none st c hkeys hcid heff] at hy'
          exact hst p' y' hy'
      | some p0 =>
          obtain ⟨pn, hpn, hroots, hchp, hchx, hdc, hdx⟩ :=
            attachStep_effParent_attach st c p0 hkeys hcid heff
          by_cases hp0 : p' = p0
          · subst hp0
            rw [hchp] at hy'
            rcases List.mem_append.mp hy' with hy' | hy'
            · exact hst p' y' hy'
            · rcases List.mem_singleton.mp hy' with rfl
              exact ⟨c, hcl, rfl, heff⟩
          · rw [hchx p' hp0] at hy'
            exact hst p' y' hy'

theorem count_chSumM (m : NodeMap) (ids : List String) (y : String) :
    Multiset.count y (chSumM m ids) = (ids.map (fun x => (childrenOf m x).count y)).sum := by
  induction ids with
  | nil => rfl
  | cons a as ih =>
      rw [chSumM_cons, Multiset.count_add, List.map_cons, List.sum_cons, ih,
        Multiset.coe_count]

theorem list_sum_eq_zero {ids : List String} {f : String → Nat}
    (h : (ids.map f).sum = 0) : ∀ x ∈ ids, f x = 0 := by
  intro x hx
  have := List.sum_eq_zero_iff.mp h
  exact this (f x) (List.mem_map.mpr ⟨x, hx, rfl⟩)

theorem list_sum_eq_one {ids : List String} {f : String → Nat} (hnd : ids.Nodup)
    (h : (ids.map f).sum = 1) :
    ∃ py ∈ ids, f py = 1 ∧ ∀ x ∈ ids, x ≠ py → f x = 0 := by
  induction ids with
  | nil => cases h
  | cons a as ih =>
      rw [List.map_cons, List.sum_cons] at h
      by_cases ha : f a = 0
      · rw [ha, Nat.zero_add] at h
        obtain ⟨py, hpy, h1, h0⟩ := ih (List.nodup_cons.mp hnd).2 h
        refine ⟨py, List.mem_cons_of_mem a hpy, h1, ?_⟩
        intro x hx hne
        rcases List.mem_cons.mp hx with rfl | hx
        · exact ha
        · exact h0 x hx hne
      · have hfa : f a = 1 ∧ (as.map f).sum = 0 := by omega
        refine ⟨a, List.mem_cons_self a as, hfa.1, ?_⟩
        intro x hx hne
        rcases List.mem_cons.mp hx with rfl | hx
        · exact absurd rfl hne
        · exact list_sum_eq_zero hfa.2 x hx

theorem childrenOf_none {m : NodeMap} {x : String} (h : m x = none) :
    childrenOf m x = [] := by
  unfold childrenOf
  rw [h]

theorem buildArena_case_split (l : List ChatInfo) (hnd : (idsOf l).Nodup)
    (y : String) (hy : y ∈ idsOf l) :
    ((buildArena l).roots.count y = 1 ∧
      ∀ x, (childrenOf (buildArena l).map x).count y = 0) ∨
    (∃ py ∈ idsOf l, (buildArena l).roots.count y = 0 ∧
      (∀ x, (childrenOf (buildArena l).map x).count y = if x = py then 1 else 0)) := by
  have hmeas := buildArena_measure l hnd
  have hcount := congrArg (Multiset.count y) hmeas
  rw [Multiset.count_add, Multiset.coe_count, Multiset.coe_count, count_chSumM] at hcount
  rw [List.count_eq_one_of_mem hnd hy] at hcount
  have hout : ∀ x, x ∉ idsOf l → (childrenOf (buildArena l).map x).count y = 0 := by
    intro x hx
    have : ((buildArena l).map x).isSome ≠ true := fun h =>
      hx ((buildArena_isSome l x).mp h)
    cases h : (buildArena l).map x with
    | none => rw [childrenOf_none h]; rfl
    | some nd => rw [h] at this; exact absurd rfl this
  by_cases hr : (buildArena l).roots.count y = 1
  · left
    refine ⟨hr, ?_⟩
    have hs : ((idsOf l).map (fun x => (childrenOf (buildArena l).map x).count y)).sum = 0 := by
      omega
    intro x
    by_cases hx : x ∈ idsOf l
    · exact list_sum_eq_zero hs x hx
    · exact hout x hx
  · right
    have hr0 : (buildArena l).roots.count y = 0 := by omega
    have hs : ((idsOf l).map (fun x => (childrenOf (buildArena l).map x).count y)).sum = 1 := by
      omega
    obtain ⟨py, hpy, h1, h0⟩ := list_sum_eq_one hnd hs
    refine ⟨py, hpy, hr0, ?_⟩
    intro x
    by_cases hxp : x = py
    · rw [if_pos hxp, hxp]; exact h1
    · rw [if_neg hxp]
      by_cases hx : x ∈ idsOf l
      · exact h0 x hx hxp
      · exact hout x hx

theorem hb_mono {m : NodeMap} {x : String} {k k' : Nat}
    (h : HB m x k) (hk : k ≤ k') : HB m x k' := by
  induction h generalizing k' with
  | node hch ih =>
      cases k' with
      | zero => omega
      | succ k'' =>
          refine HB.node ?_
          intro y hy
          exact ih y hy (by omega)

theorem countP_le_of_imp {α : Type} (l : List α) (p q : α → Bool)
    (h : ∀ x ∈ l, q x = true → p x = true) : l.countP q ≤ l.countP p := by
  induction l with
  | nil => exact Nat.le_refl _
  | cons a as ih =>
      rw [List.countP_cons, List.countP_cons]
      have h1 : as.countP q ≤ as.countP p :=
        ih (fun x hx => h x (List.mem_cons_of_mem a hx))
      have h2 : (if q a then 1 else 0) ≤ (if p a then 1 else 0) := by
        by_cases hq : q a = true
        · rw [if_pos hq, if_pos (h a (List.mem_cons_self a as) hq)]
        · rw [if_neg hq]
          omega
      omega

theorem countP_lt_of_witness {α : Type} (l : List α) (p q : α → Bool)
    (hpq : ∀ x ∈ l, q x = true → p x = true)
    (y : α) (hy : y ∈ l) (hpy : p y = true) (hqy : q y = false) :
    l.countP q < l.countP p := by
  induction l with
  | nil => cases hy
  | cons a as ih =>
      rw [List.countP_cons, List.countP_cons]
      have hsub : ∀ x ∈ as, q x = true → p x = true :=
        fun x hx => hpq x (List.mem_cons_of_mem a hx)
      rcases List.mem_cons.mp hy with rfl | hy2
      · have h1 : as.countP q ≤ as.countP p := countP_le_of_imp as p q hsub
        have e1 : (if q y = true then 1 else 0 : Nat) = 0 := by simp [hqy]
        have e2 : (if p y = true then 1 else 0 : Nat) = 1 := by simp [hpy]
        rw [e1, e2]
        omega
      · have h1 : as.countP q < as.countP p := ih hsub hy2
        have h2 : (if q a then 1 else 0) ≤ (if p a then 1 else 0) := by
          by_cases hq : q a = true
          · rw [if_pos hq, if_pos (hpq a (List.mem_cons_self a as) hq)]
          · rw [if_neg hq]
            omega
        omega

theorem filter_length_lt {α : Type} (l : List α) (p q : α → Bool)
    (hpq : ∀ x ∈ l, q x = true → p x = true)
    (y : α) (hy : y ∈ l) (hpy : p y = true) (hqy : q y = false) :
    (l.filter q).length < (l.filter p).length := by
  rw [← List.countP_eq_length_filter, ← List.countP_eq_length_filter]
  exact countP_lt_of_witness l p q hpq y hy hpy hqy

theorem sum_map_add {α : Type} (L : List α) (f g : α → Nat) :
    (L.map (fun a => f a + g a)).sum = (L.map f).sum + (L.map g).sum := by
  induction L with
  | nil => rfl
  | cons a as ih =>
      simp only [List.map_cons, List.sum_cons, ih]
      omega

theorem sum_indicator_eq_count (y : String) (L : List String) :
    (L.map (fun c => if y = c then 1 else 0)).sum = L.count y := by
  induction L with
  | nil => rfl
  | cons a as ih =>
      simp only [List.map_cons, List.sum_cons, List.count_cons, ih]
      by_cases h : y = a
      · simp [h]
        omega
      · simp [h]
        exact fun e => h e.symm

theorem count_flatten_map {α : Type} (L : List α) (f : α → List String) (y : String) :
    ((L.map f).flatten).count y = (L.map (fun a => (f a).count y)).sum := by
  rw [List.count_flatten, List.map_map]
  rfl

theorem perm_flatten_of_perm {α : Type} {l₁ l₂ : List (List α)} (h : l₁.Perm l₂) :
    l₁.flatten.Perm l₂.flatten := by
  induction h with
  | nil => exact List.Perm.refl _
  | cons x h ih =>
      simp only [List.flatten_cons]
      exact ih.append_left x
  | swap x y l =>
      simp only [List.flatten_cons]
      rw [← List.append_assoc, ← List.append_assoc]
      exact (List.perm_append_comm).append_right _
  | trans h1 h2 ih1 ih2 => exact ih1.trans ih2

theorem arenaSim_children_count {m m' : NodeMap} (h : ArenaSim m m') (x y : String) :
    (childrenOf m' x).count y = (childrenOf m x).count y :=
  ((h x).2.2.2.2).count_eq y

theorem arenaSim_children_mem {m m' : NodeMap} (h : ArenaSim m m') (x y : String) :
    y ∈ childrenOf m' x ↔ y ∈ childrenOf m x :=
  ((h x).2.2.2.2).mem_iff

theorem flattenF_fuel_irrel {m : NodeMap} {x : String} {k : Nat} (h : HB m x k) :
    ∀ f1 f2, k ≤ f1 → k ≤ f2 → flattenF f1 m x = flattenF f2 m x := by
  induction h with
  | @node x' k' hck ih =>
      intro f1 f2 h1 h2
      cases f1 with
      | zero => omega
      | succ g1 =>
          cases f2 with
          | zero => omega
          | succ g2 =>
              simp only [flattenF]
              congr 1
              refine congrArg List.flatten (List.map_congr_left ?_)
              intro c hc
              exact ih c hc g1 g2 (by omega) (by omega)

theorem flattenF_unfold {m : NodeMap} {x : String} {k F : Nat} (h : HB m x k) (hF : k ≤ F) :
    flattenF F m x = x :: ((childrenOf m x).map (flattenF F m)).flatten := by
  cases h with
  | node hck =>
      rename_i k'
      cases F with
      | zero => omega
      | succ g =>
          simp only [flattenF]
          congr 1
          refine congrArg List.flatten (List.map_congr_left ?_)
          intro c hc
          exact flattenF_fuel_irrel (hck c hc) g (g + 1) (by omega) (by omega)

theorem flattenF_mem_ids {m : NodeMap} {ids : List String}
    (hclosed : ∀ p c, c ∈ childrenOf m p → c ∈ ids) :
    ∀ (F : Nat) (x : String), x ∈ ids → ∀ z ∈ flattenF F m x, z ∈ ids := by
  intro F
  induction F with
  | zero => intro x _ z hz; cases hz
  | succ g ih =>
      intro x hx z hz
      simp only [flattenF] at hz
      rcases List.mem_cons.mp hz with rfl | hz
      · exact hx
      · rcases List.mem_flatten.mp hz with ⟨s, hs, hzs⟩
        rcases List.mem_map.mp hs with ⟨c, hc, rfl⟩
        exact ih c (hclosed x c hc) z hzs

theorem hb_build {m : NodeMap} {ids : List String} (rank : String → Nat)
    (hclosed : ∀ p c, c ∈ childrenOf m p → c ∈ ids)
    (hrank : ∀ p c, c ∈ childrenOf m p → rank p < rank c) :
    ∀ x, HB m x ((ids.filter (fun z => decide (rank x < rank z))).length + 1) := by
  suffices haux : ∀ n x, (ids.filter (fun z => decide (rank x < rank z))).length < n →
      HB m x ((ids.filter (fun z => decide (rank x < rank z))).length + 1) by
    intro x
    exact haux ((ids.filter (fun z => decide (rank x < rank z))).length + 1) x (by omega)
  intro n
  induction n with
  | zero => intro x hx; omega
  | succ n ih =>
      intro x hx
      refine HB.node ?_
      intro c hc
      have hcid : c ∈ ids := hclosed x c hc
      have hrc : rank x < rank c := hrank x c hc
      have hlt : (ids.filter (fun z => decide (rank c < rank z))).length
          < (ids.filter (fun z => decide (rank x < rank z))).length := by
        refine filter_length_lt ids (fun z => decide (rank x < rank z))
          (fun z => decide (rank c < rank z)) ?_ c hcid ?_ ?_
        · intro z _ hz
          exact decide_eq_true (lt_trans hrc (of_decide_eq_true hz))
        · exact decide_eq_true hrc
        · simp
      exact hb_mono (ih c (by omega)) (by omega)

theorem flattenF_count_nochild {m : NodeMap} {y : String}
    (hch : ∀ x, (childrenOf m x).count y = 0) {F : Nat} :
    ∀ {x k}, HB m x k → k ≤ F →
      (flattenF F m x).count y = if y = x then 1 else 0 := by
  intro x k h
  induction h with
  | @node x' k' hck ih =>
      intro hF
      rw [flattenF_unfold (HB.node hck) hF, List.count_cons, count_flatten_map]
      have hmap : (childrenOf m x').map (fun c => (flattenF F m c).count y)
          = (childrenOf m x').map (fun c => if y = c then 1 else 0) := by
        refine List.map_congr_left ?_
        intro c hc
        exact ih c hc (by omega)
      rw [hmap, sum_indicator_eq_count, hch x']
      by_cases hyx : y = x'
      · simp [hyx]
      · simp [hyx]
        exact fun e => hyx e.symm

theorem flattenF_count_child {m : NodeMap} {y py : String} (hne : y ≠ py)
    (hch : ∀ x, (childrenOf m x).count y = if x = py then 1 else 0) {F : Nat} :
    ∀ {x k}, HB m x k → k ≤ F →
      (flattenF F m x).count y
        = (if y = x then 1 else 0) + (flattenF F m x).count py := by
  intro x k h
  induction h with
  | @node x' k' hck ih =>
      intro hF
      rw [flattenF_unfold (HB.node hck) hF, List.count_cons, List.count_cons,
        count_flatten_map, count_flatten_map]
      have hmap : (childrenOf m x').map (fun c => (flattenF F m c).count y)
          = (childrenOf m x').map
              (fun c => (if y = c then 1 else 0) + (flattenF F m c).count py) := by
        refine List.map_congr_left ?_
        intro c hc
        exact ih c hc (by omega)
      rw [hmap, sum_map_add, sum_indicator_eq_count, hch x']
      simp only [beq_iff_eq]
      by_cases h1 : y = x'
      · by_cases h2 : py = x'
        · exact absurd (h1.trans h2.symm) hne
        · have h2' : ¬(x' = py) := fun e => h2 e.symm
          simp only [if_pos h1, if_pos h1.symm, if_neg h2']
          omega
      · have h1' : ¬(x' = y) := fun e => h1 e.symm
        by_cases h2 : py = x'
        · simp only [if_neg h1, if_neg h1', if_pos h2.symm]
          omega
        · have h2' : ¬(x' = py) := fun e => h2 e.symm
          simp only [if_neg h1, if_neg h1', if_neg h2']
          omega

theorem arena_partition (m : NodeMap) (ids roots : List String) (rank : String → Nat)
    (F : Nat) (hnd : ids.Nodup)
    (hroots : ∀ r ∈ roots, r ∈ ids)
    (hclosed : ∀ p c, c ∈ childrenOf m p → c ∈ ids)
    (hrank : ∀ p c, c ∈ childrenOf m p → rank p < rank c)
    (hcase : ∀ y ∈ ids,
      (roots.count y = 1 ∧ ∀ x, (childrenOf m x).count y = 0) ∨
      (∃ py ∈ ids, roots.count y = 0 ∧
        ∀ x, (childrenOf m x).count y = if x = py then 1 else 0))
    (hF : ids.length + 1 ≤ F) :
    ((roots.map (flattenF F m)).flatten).Perm ids := by
  have hb : ∀ x, HB m x F := by
    intro x
    refine hb_mono (hb_build rank hclosed hrank x) ?_
    have := List.length_filter_le (fun z => decide (rank x < rank z)) ids
    omega
  have key : ∀ n y, y ∈ ids →
      (ids.filter (fun z => decide (rank z < rank y))).length < n →
      (roots.map (fun r => (flattenF F m r).count y)).sum = 1 := by
    intro n
    induction n with
    | zero => intro y _ h; omega
    | succ n ih =>
        intro y hy hν
        rcases hcase y hy with ⟨hr1, hch0⟩ | ⟨py, hpy, hr0, hch1⟩
        · have hmap : roots.map (fun r => (flattenF F m r).count y)
              = roots.map (fun r => if y = r then 1 else 0) := by
            refine List.map_congr_left ?_
            intro r _
            exact flattenF_count_nochild hch0 (hb r) (Nat.le_refl F)
          rw [hmap, sum_indicator_eq_count, hr1]
        · have hymem : y ∈ childrenOf m py := by
            refine List.count_pos_iff.mp ?_
            rw [hch1 py, if_pos rfl]
            omega
          have hrpy : rank py < rank y := hrank py y hymem
          have hney : y ≠ py := by
            intro e
            rw [e] at hrpy
            exact lt_irrefl _ hrpy
          have hνlt : (ids.filter (fun z => decide (rank z < rank py))).length
              < (ids.filter (fun z => decide (rank z < rank y))).length := by
            refine filter_length_lt ids (fun z => decide (rank z < rank y))
              (fun z => decide (rank z < rank py)) ?_ py hpy ?_ ?_
            · intro z _ hz
              exact decide_eq_true (lt_trans (of_decide_eq_true hz) hrpy)
            · exact decide_eq_true hrpy
            · simp
          have hTpy := ih py hpy (by omega)
          have hmap : roots.map (fun r => (flattenF F m r).count y)
              = roots.map
                  (fun r => (if y = r then 1 else 0) + (flattenF F m r).count py) := by
            refine List.map_congr_left ?_
            intro r _
            exact flattenF_count_child hney hch1 (hb r) (Nat.le_refl F)
          rw [hmap, sum_map_add, sum_indicator_eq_count, hr0, hTpy]
  refine List.perm_iff_count.mpr ?_
  intro y
  rw [count_flatten_map]
  by_cases hy : y ∈ ids
  · rw [List.count_eq_one_of_mem hnd hy]
    exact key ((ids.filter (fun z => decide (rank z < rank y))).length + 1) y hy
      (by omega)
  · have hz : ∀ r ∈ roots, (flattenF F m r).count y = 0 := by
      intro r hr
      refine List.count_eq_zero.mpr ?_
      intro hmem
      exact hy (flattenF_mem_ids hclosed F r (hroots r hr) y hmem)
    have hmapz : roots.map (fun r => (flattenF F m r).count y)
        = roots.map (fun _ => 0) := List.map_congr_left hz
    rw [hmapz, List.count_eq_zero.mpr hy]
    simp

theorem processedList_length (chats : List ChatInfo) (cfg : Option SortConfig)
    (detect : Bool) : (processedList chats cfg detect).length = chats.length := by
  have h := (processedList_ids_perm chats cfg detect).length_eq
  unfold idsOf at h
  rw [List.length_map, List.length_map] at h
  exact h

theorem buildArena_roots_sub (l : List ChatInfo) (hnd : (idsOf l).Nodup) :
    ∀ r ∈ (buildArena l).roots, r ∈ idsOf l := by
  intro r hr
  have hmeas := buildArena_measure l hnd
  have hle : ((buildArena l).roots : Multiset String) ≤ (idsOf l : Multiset String) :=
    Multiset.le_iff_exists_add.mpr ⟨_, hmeas.symm⟩
  have hm : r ∈ ((buildArena l).roots : Multiset String) := by
    rw [Multiset.mem_coe]
    exact hr
  rw [← Multiset.mem_coe]
  exact Multiset.mem_of_le hle hm

/-- **C2, amended.**  Partition invariant, under the two hypotheses the code
actually needs: the input ids are duplicate-free, and the resolved-parent
relation on the processed list is acyclic (witnessed by a rank function that
decreases from child to resolved parent).  Then the node ids of the returned
trees are exactly the input ids, each exactly once; the sum of the trees'
`node_count` fields equals `total_count`; and `countNodesInForest` returns
`total_count`.  Without acyclicity the partition fails: see the
counterexample, where a 2-cycle's records appear in no tree at all. -/
theorem buildChatForest_partition (chats : List ChatInfo) (cfg : Option SortConfig)
    (detect : Bool) (rank : String → Nat)
    (hnd : (idsOf chats).Nodup)
    (hrank : ∀ c ∈ processedList chats cfg detect,
      ∀ p ∈ idsOf (processedList chats cfg detect),
        effParent (idsOf (processedList chats cfg detect)) c = some p →
          rank p < rank c.file_id) :
    (((buildChatForest chats cfg detect).trees.map ChatTree.nodeIds).flatten).Perm
        (idsOf chats) ∧
    ((buildChatForest chats cfg detect).trees.map ChatTree.node_count).sum
        = (buildChatForest chats cfg detect).total_count ∧
    countNodesInForest (buildChatForest chats cfg detect)
        = (buildChatForest chats cfg detect).total_count := by
  have hnd' : (idsOf (processedList chats cfg detect)).Nodup :=
    ((processedList_ids_perm chats cfg detect).nodup_iff).mpr hnd
  have hsim : ArenaSim (buildArena (processedList chats cfg detect)).map
      (sortPass (chats.length + 1) (buildArena (processedList chats cfg detect)).map
        (buildArena (processedList chats cfg detect)).roots) :=
    sortPass_sim _ _ _
  have hclosed : ∀ p c,
      c ∈ childrenOf (sortPass (chats.length + 1)
        (buildArena (processedList chats cfg detect)).map
        (buildArena (processedList chats cfg detect)).roots) p →
      c ∈ idsOf (processedList chats cfg detect) := by
    intro p c hc
    have hc0 := (arenaSim_children_mem hsim p c).mp hc
    obtain ⟨d, hd, hdid, _⟩ := buildArena_children_sound _ p c hc0
    rw [← hdid]
    exact List.mem_map.mpr ⟨d, hd, rfl⟩
  have hrank' : ∀ p c,
      c ∈ childrenOf (sortPass (chats.length + 1)
        (buildArena (processedList chats cfg detect)).map
        (buildArena (processedList chats cfg detect)).roots) p →
      rank p < rank c := by
    intro p c hc
    have hc0 := (arenaSim_children_mem hsim p c).mp hc
    obtain ⟨d, hd, hdid, heff⟩ := buildArena_children_sound _ p c hc0
    have hpids : p ∈ idsOf (processedList chats cfg detect) :=
      (effParent_some_facts heff).2.2
    rw [← hdid]
    exact hrank d hd p hpids heff
  have hcase : ∀ y ∈ idsOf (processedList chats cfg detect),
      ((buildArena (processedList chats cfg detect)).roots.count y = 1 ∧
        ∀ x, (childrenOf (sortPass (chats.length + 1)
          (buildArena (processedList chats cfg detect)).map
          (buildArena (processedList chats cfg detect)).roots) x).count y = 0) ∨
      (∃ py ∈ idsOf (processedList chats cfg detect),
        (buildArena (processedList chats cfg detect)).roots.count y = 0 ∧
        ∀ x, (childrenOf (sortPass (chats.length + 1)
          (buildArena (processedList chats cfg detect)).map
          (buildArena (processedList chats cfg detect)).roots) x).count y
            = if x = py then 1 else 0) := by
    intro y hy
    rcases buildArena_case_split _ hnd' y hy with ⟨h1, h2⟩ | ⟨py, hpy, h1, h2⟩
    · exact Or.inl ⟨h1, fun x => (arenaSim_children_count hsim x y).trans (h2 x)⟩
    · exact Or.inr ⟨py, hpy, h1,
        fun x => (arenaSim_children_count hsim x y).trans (h2 x)⟩
  have hF : (idsOf (processedList chats cfg detect)).length + 1 ≤ chats.length + 1 := by
    unfold idsOf
    rw [List.length_map, processedList_length]
  have hpart := arena_partition _ _ _ rank (chats.length + 1) hnd'
    (buildArena_roots_sub _ hnd') hclosed hrank' hcase hF
  have htrees : ((buildChatForest chats cfg detect).trees.map ChatTree.nodeIds).Perm
      ((buildArena (processedList chats cfg detect)).roots.map
        (flattenF (chats.length + 1)
          (sortPass (chats.length + 1) (buildArena (processedList chats cfg detect)).map
            (buildArena (processedList chats cfg detect)).roots))) := by
    refine List.Perm.trans ((sortJS_perm treeCmp _).map ChatTree.nodeIds) ?_
    rw [List.map_map]
    exact List.Perm.refl _
  have hcnt : ((buildChatForest chats cfg detect).trees.map ChatTree.node_count).Perm
      ((buildArena (processedList chats cfg detect)).roots.map
        (fun r => (flattenF (chats.length + 1)
          (sortPass (chats.length + 1) (buildArena (processedList chats cfg detect)).map
            (buildArena (processedList chats cfg detect)).roots) r).length)) := by
    refine List.Perm.trans ((sortJS_perm treeCmp _).map ChatTree.node_count) ?_
    rw [List.map_map]
    exact List.Perm.refl _
  refine ⟨((perm_flatten_of_perm htrees).trans hpart).trans
    (processedList_ids_perm chats cfg detect), ?_, rfl⟩
  rw [hcnt.sum_eq]
  have hlen : ((buildArena (processedList chats cfg detect)).roots.map
      (fun r => (flattenF (chats.length + 1)
        (sortPass (chats.length + 1) (buildArena (processedList chats cfg detect)).map
          (buildArena (processedList chats cfg detect)).roots) r).length)).sum
      = (((buildArena (processedList chats cfg detect)).roots.map
          (flattenF (chats.length + 1)
            (sortPass (chats.length + 1)
              (buildArena (processedList chats cfg detect)).map
              (buildArena (processedList chats cfg detect)).roots))).flatten).length := by
    rw [List.length_flatten, List.map_map]
    rfl
  rw [hlen, hpart.length_eq]
  show (idsOf (processedList chats cfg detect)).length = chats.length
  unfold idsOf
  rw [List.length_map, processedList_length]

/-- Witness for the amended partition claim: the ordered chain `g ← p ← c`
(parents precede children, no duplicate ids) with the rank function
`g ↦ 0, p ↦ 1, c ↦ 2`. -/
theorem buildChatForest_partition_w :
    (((buildChatForest [orderedG, orderedP, orderedC] none true).trees.map
        ChatTree.nodeIds).flatten).Perm (idsOf [orderedG, orderedP, orderedC]) ∧
    ((buildChatForest [orderedG, orderedP, orderedC] none true).trees.map
        ChatTree.node_count).sum
      = (buildChatForest [orderedG, orderedP, orderedC] none true).total_count ∧
    countNodesInForest (buildChatForest [orderedG, orderedP, orderedC] none true)
      = (buildChatForest [orderedG, orderedP, orderedC] none true).total_count :=
  buildChatForest_partition [orderedG, orderedP, orderedC] none true
    (fun s => if s = "g" then 0 else if s = "p" then 1 else if s = "c" then 2 else 3)
    (by decide) (by decide)
